import Mathlib

/-!
# Verification of the CCE hyperdimensional core (Codebook / Particle / Nucleation / Crystallization)

Shallow embedding of `src/cce/codebook.py`, `src/cce/particle.py`,
`src/cce/nucleation.py` and `src/cce/crystallization.py`.

Modelling conventions:
* NumPy float arrays are embedded as `List ℚ` (exact rational arithmetic in
  place of IEEE floats; every constant of the source — 0.7, 0.3, 0.15, … —
  is carried as the exact rational it denotes).
* NumPy's global or seeded random streams are embedded as explicit function
  parameters (`ℕ → Bool` / `ℕ → ℚ` streams); the SHA-256 + `RandomState`
  bit generator behind `Codebook.encode` is external library code and is
  modelled by a concrete deterministic integer mixer producing ±1 — the
  development only relies on it being a fixed function into {−1, +1}.
* NumPy arrays are heap objects in Python: `Codebook` hands out *references*
  into its cache.  The embedding makes this explicit with an address-indexed
  heap (`heap : List Vec`) so that aliasing between the cache and callers is
  represented faithfully.
* Python's in-place mutation of particles is embedded by passing the particle
  store (`PField := List Particle`) explicitly; object references become
  indices into that store (the arena-style representation).
-/

/-- A meaning vector: NumPy float array embedded as a list of rationals. -/
abbrev Vec := List ℚ

/-- Dot product, `np.dot`. -/
def dotV (a b : Vec) : ℚ := (List.zipWith (· * ·) a b).sum

/-- Squared Euclidean norm (`np.linalg.norm(a) ** 2`). -/
def normSq (a : Vec) : ℚ := dotV a a

/-- Embeds `np.sign` on one entry: 1 for positive, -1 for negative, 0 for zero. -/
def signQ (x : ℚ) : ℚ := if 0 < x then 1 else if x < 0 then -1 else 0

/-- A bipolar vector: every entry is exactly +1 or −1. -/
def Bipolar (v : Vec) : Prop := ∀ x ∈ v, x = 1 ∨ x = -1

instance : DecidablePred Bipolar := fun v =>
  List.decidableBAll (fun x => x = 1 ∨ x = -1) v

/-- Embeds `Codebook.similarity` (codebook.py lines 80-87): cosine similarity,
`dot(a,b) / (‖a‖·‖b‖)`, with `0.0` returned when either norm is zero.
The zero test `na == 0 or nb == 0` is expressed on the squared norms,
which vanish exactly when the norms do. -/
noncomputable def similarityR (a b : Vec) : ℝ :=
  if normSq a = 0 ∨ normSq b = 0 then 0
  else (dotV a b : ℝ) / (Real.sqrt (normSq a) * Real.sqrt (normSq b))

/-- Cosine similarity in the exact rational form used inside the executable
pipeline embedding.  On two bipolar vectors of a common positive length `n`
(the vectors this pipeline manipulates) both norms equal `√n`, so the
source's `dot(a,b)/(‖a‖·‖b‖)` is exactly `dot(a,b)/n`; `similarityR_eq_simQ`
below proves this agreement.  Degenerate zero vectors get similarity 0 here
and (after the source's `1e-8` norm clamp) a near-0 value in the source;
both sit below any positive peak threshold. -/
def simQ (a b : Vec) : ℚ :=
  if a.length = 0 then 0 else dotV a b / (a.length : ℚ)

/-- Embeds `Codebook.bind` (codebook.py lines 57-64): element-wise multiplication. -/
def bind (a b : Vec) : Vec := List.zipWith (· * ·) a b

/-- Element-wise sum of two vectors (`+` on NumPy arrays). -/
def vecAdd (a b : Vec) : Vec := List.zipWith (· + ·) a b

/-- Scalar multiple of a vector. -/
def vecScale (c : ℚ) (v : Vec) : Vec := v.map (fun x => c * x)

/-- Embeds `np.sum(np.stack(vecs), axis=0)`: column-wise sum of a non-empty list of
vectors (NumPy raises on an empty stack; the nominal value `[]` is returned
for `[]` here and is never reached by the claims). -/
def sumVecs : List Vec → Vec
  | [] => []
  | v :: rest => rest.foldl vecAdd v

/-- Embeds `Codebook.bundle` (codebook.py lines 66-78): column-wise sum followed by
sign; a zero column is replaced by a fresh ±1 draw from the ambient
(unseeded) generator, embedded as the explicit stream `rnd`. -/
def bundle (rnd : ℕ → Bool) (vs : List Vec) : Vec :=
  let s := sumVecs vs
  (List.range s.length).map (fun i =>
    let x := s.getD i 0
    if x = 0 then (if rnd i then 1 else -1) else signQ x)

/-!
## Codebook state (codebook.py lines 23-55, 125-141)

`_memory : dict[str, np.ndarray]` maps a symbol to an array *object*; the
embedding splits this into `memory : List (String × ℕ)` (symbol → heap
address, insertion at the front, first hit on lookup — the dict view) and
`heap : List Vec` (address → current array contents). `encode` returns the
address of the cached array, exactly as the Python function returns the
array reference itself.
-/

structure Codebook where
  dim : Int
  seed : Int
  memory : List (String × ℕ)
  heap : List Vec
deriving DecidableEq

namespace Codebook

/-- Embeds `Codebook.__init__` (codebook.py lines 30-33): stores `dim` and `seed`
and starts an empty cache.  The source performs no validation of `dim`. -/
def init (dim seed : Int) : Codebook := ⟨dim, seed, [], []⟩

/-- Modelled: a 64-bit mix of the symbol's bytes, standing in for
`hashlib.sha256(symbol).digest()[:8]` (external library code).  Only
determinism matters to the development. -/
def strMix (s : String) : ℕ :=
  s.data.foldl (fun a c => (a * 131 + c.toNat) % 18446744073709551616) 5381

/-- Modelled: one ±1 draw of `np.random.RandomState(seed).choice([-1, 1])`
(external library code); any fixed function into `Bool` is faithful to the
properties the claims use. -/
def prngBit (seed i : ℕ) : Bool :=
  ((seed + 1) * (i + 7) * 2654435761) % 97 % 2 = 0

/-- The fresh bipolar vector built in `encode` (codebook.py lines 49-53):
seed = (sha-mix of the symbol) XOR the configured seed, masked to 32 bits,
expanded to `dim` independent ±1 choices. -/
def genVec (dim seed : Int) (symbol : String) : Vec :=
  let symSeed := (strMix symbol ^^^ seed.natAbs) % 4294967296
  (List.range dim.toNat).map (fun i => if prngBit symSeed i then (1 : ℚ) else -1)

/-- Read the array currently stored at a heap address. -/
def readHeap (cb : Codebook) (addr : ℕ) : Vec := cb.heap.getD addr []

/-- A caller writing through an array reference it was handed
(`vec[:] = ...` on the returned NumPy array). -/
def writeHeap (cb : Codebook) (addr : ℕ) (v : Vec) : Codebook :=
  { cb with heap := cb.heap.set addr v }

/-- Embeds `Codebook.encode` (codebook.py lines 39-55): return the cached array
reference if the symbol is known, else generate, cache and return it. -/
def encode (cb : Codebook) (symbol : String) : ℕ × Codebook :=
  match cb.memory.lookup symbol with
  | some addr => (addr, cb)
  | none =>
      let v := genVec cb.dim cb.seed symbol
      let addr := cb.heap.length
      (addr, { cb with memory := (symbol, addr) :: cb.memory, heap := cb.heap ++ [v] })

/-- The vector value `encode` hands back (the contents of the returned
array reference). -/
def encodeVal (cb : Codebook) (symbol : String) : Vec :=
  readHeap (encode cb symbol).2 (encode cb symbol).1

/-- Modelled: the (in-run-deterministic) seed `hash(symbol) & 0xFFFFFFFF`
of `decompose` (codebook.py line 134); a second independent mixer. -/
def decompSeed (s : String) : ℕ :=
  (s.data.foldl (fun a c => (a * 257 + c.toNat + 11) % 4294967296) 99991)

/-- The i-th noise vector drawn inside `decompose` (codebook.py line 136);
the draws of one `RandomState` are consumed sequentially, so particle `i`
sees the slice starting at `i * dim`. -/
def noiseVec (dim : Int) (s : String) (i : ℕ) : Vec :=
  (List.range dim.toNat).map (fun j =>
    if prngBit (decompSeed s) (i * dim.toNat + j) then (1 : ℚ) else -1)

/-- Embeds `Codebook.decompose` (codebook.py lines 125-141): n sub-particles, each
`sign(0.7 · base + 0.3 · noise)`. -/
def decompose (cb : Codebook) (symbol : String) (n : ℕ) : List Vec × Codebook :=
  let r := encode cb symbol
  let base := readHeap r.2 r.1
  ((List.range n).map (fun i =>
      List.zipWith (fun b no => signQ (7/10 * b + 3/10 * no)) base (noiseVec r.2.dim symbol i)),
    r.2)

/-- Cache integrity: every cached address is live and holds a bipolar vector
of the configured dimension.  This is the invariant of every codebook state
reachable through `init`/`encode`/`decompose` (see `wf_init`, `wf_encode`). -/
def WF (cb : Codebook) : Prop :=
  ∀ p ∈ cb.memory, p.2 < cb.heap.length ∧
    Bipolar (cb.heap.getD p.2 []) ∧ (cb.heap.getD p.2 []).length = cb.dim.toNat

instance : DecidablePred WF := fun cb =>
  List.decidableBAll _ cb.memory

end Codebook

/-!
## Particles and the field (particle.py)

Python particles are mutable heap objects referenced from the field, from
density peaks and from nuclei.  The embedding stores them in one arena
(`PField := List Particle`); every Python object reference becomes an index
into that arena, so shared mutation (freezing) is represented exactly.
-/

inductive ParticleCategory where
  | INTENT
  | EMOTION
  | CONTEXT
  | PERSONA
deriving DecidableEq

/-- A meaning-particle (particle.py lines 33-51). -/
structure Particle where
  position : Vec
  charge : ℚ
  temperature : ℚ
  label : String
  category : ParticleCategory
  mass : ℚ
  frozen : Bool
deriving DecidableEq

instance : Inhabited Particle :=
  ⟨⟨[], 1, 1/2, "", ParticleCategory.INTENT, 1, false⟩⟩

/-- The particle arena of a `ParticleField` (particle.py lines 79-97). -/
abbrev PField := List Particle

/-- Dereference a particle index (total; all uses stay in range). -/
def getP (f : PField) (i : ℕ) : Particle := f.getD i default

/-- Embeds `ParticleField.free_particles` (particle.py lines 99-101), as the list of
arena indices of unfrozen particles, in field order. -/
def freeIdxs (f : PField) : List ℕ :=
  (List.range f.length).filter (fun i => !(getP f i).frozen)

/-- A density peak (particle.py lines 54-60); `contributing` holds arena
indices of the contributing particles (shared references in the source). -/
structure DensityPeak where
  position : Vec
  density : ℚ
  contributing : List ℕ
deriving DecidableEq

/-- Position of the j-th free particle (row j of the `positions` matrix in
`compute_density`). -/
def posAt (f : PField) (free : List ℕ) (j : ℕ) : Vec := (getP f (free.getD j 0)).position

/-- Charge of the j-th free particle. -/
def chargeAt (f : PField) (free : List ℕ) (j : ℕ) : ℚ := (getP f (free.getD j 0)).charge

/-- Entry (j,k) of the pairwise similarity matrix of `compute_density`
(particle.py lines 140-144): the normalized dot product, embedded through
`simQ` (see its doc comment for the relation to the source's clamped
normalization). -/
def simAt (f : PField) (free : List ℕ) (j k : ℕ) : ℚ :=
  simQ (posAt f free j) (posAt f free k)

/-- Density of the j-th free particle (particle.py lines 146-153):
`Σ_k max(sim(j,k), 0) * charge(k)` over all free particles. -/
def densityAt (f : PField) (free : List ℕ) (j : ℕ) : ℚ :=
  ((List.range free.length).map (fun k => max (simAt f free j k) 0 * chargeAt f free k)).sum

/-- First index of the maximal value of `g` among `b :: js` (the tie-break
of `np.argmax`: earliest index wins). -/
def argmaxFold (g : ℕ → ℚ) (b : ℕ) (js : List ℕ) : ℕ :=
  js.foldl (fun best j => if g best < g j then j else best) b

/-- The seed selection of the greedy loop (particle.py lines 160-162):
`np.argmax` over densities with used entries masked to −∞.  Among the
still-unused indices it returns the first one of maximal density; when all
are used the masked maximum is −∞ and the Python loop breaks at
`masked[idx] <= 0`, rendered here as `none`. -/
def pickSeed (f : PField) (free : List ℕ) (used : List ℕ) : Option ℕ :=
  match (List.range free.length).filter (fun j => decide (j ∉ used)) with
  | [] => none
  | j :: js => some (argmaxFold (densityAt f free) j js)

/-- The greedy peak-extraction loop of `compute_density` (particle.py lines
155-185).  `used` is the Boolean mask as the list of marked positions into
`free`; `fuel` bounds the iteration count (each pass either returns or marks
at least one new position, so the `free.length + 1` supplied by
`computeDensity` is never exhausted). -/
def greedyLoop (f : PField) (free : List ℕ) (min_distance : ℚ) :
    ℕ → List ℕ → List DensityPeak → List DensityPeak × List ℕ
  | 0, used, peaks => (peaks, used)
  | fuel + 1, used, peaks =>
    match pickSeed f free used with
    | none => (peaks, used)
    | some idx =>
      if densityAt f free idx ≤ 0 then (peaks, used)
      else
        let contrib := (List.range free.length).filter
          (fun j => decide (j ∉ used) && decide (min_distance ≤ simAt f free idx j))
        if contrib.isEmpty then
          greedyLoop f free min_distance fuel (idx :: used) peaks
        else
          let used' := contrib ++ used
          let pk : DensityPeak :=
            { position := posAt f free idx
              density := densityAt f free idx
              contributing := contrib.map (fun j => free.getD j 0) }
          if (List.range free.length).all (fun j => decide (j ∈ used')) then
            (peaks ++ [pk], used')
          else
            greedyLoop f free min_distance fuel used' (peaks ++ [pk])

/-- Embeds `ParticleField.compute_density` (particle.py lines 123-197): the greedy
peak extraction followed by the orphan pass that turns every still-unused
free particle into its own singleton peak. -/
def computeDensity (f : PField) (min_distance : ℚ) : List DensityPeak :=
  let free := freeIdxs f
  if free.isEmpty then []
  else
    let r := greedyLoop f free min_distance (free.length + 1) [] []
    r.1 ++ ((List.range free.length).filter (fun j => decide (j ∉ r.2))).map
      (fun j =>
        { position := posAt f free j
          density := densityAt f free j
          contributing := [free.getD j 0] })

/-!
## Nucleation (nucleation.py)
-/

/-- A crystallization seed (nucleation.py lines 24-63); `absorbed` holds
arena indices of the absorbed particles. -/
structure CrystalNucleus where
  center : Vec
  strength : ℚ
  emotional_charge : Option Vec
  absorbed : List ℕ
  label : String
deriving DecidableEq

instance : Inhabited CrystalNucleus := ⟨⟨[], 0, none, [], ""⟩⟩

/-- Stable insertion of `x` behind every element of strictly larger key:
one step of the stable descending sort below. -/
def insertDescBy {α : Type} (key : α → ℚ) (x : α) : List α → List α
  | [] => [x]
  | y :: ys => if key x < key y then y :: insertDescBy key x ys else x :: y :: ys

/-- Stable sort, descending by `key`: Python's `list.sort(key=lambda v:
-key(v))` (stable, ties keep original order). -/
def sortDescBy {α : Type} (key : α → ℚ) : List α → List α
  | [] => []
  | x :: xs => insertDescBy key x (sortDescBy key xs)

/-- Distinct elements in order of first occurrence — the key order of a
Python `Counter` built from the list. -/
def firstOccs (l : List String) : List String :=
  l.foldl (fun acc x => if x ∈ acc then acc else acc ++ [x]) []

/-- Embeds `label.split("#")[0]`: the prefix before the first `#`. -/
def splitHash (s : String) : String := ⟨s.data.takeWhile (fun c => c ≠ '#')⟩

/-- Embeds `"+".join(parts)`. -/
def joinPlus : List String → String
  | [] => ""
  | [x] => x
  | x :: y :: xs => x ++ "+" ++ joinPlus (y :: xs)

/-- The nucleus label of nucleation.py lines 95-100: the three most common
base labels (`Counter.most_common(3)`: count-descending, ties in first-
occurrence order), joined with `+`. -/
def topLabels (labels : List String) : String :=
  joinPlus ((sortDescBy (fun x => ((labels.count x : ℕ) : ℚ)) (firstOccs labels)).take 3)

/-- Embeds `DensityPeak.dominant_emotion` (particle.py lines 62-70): the mean
position of the EMOTION-category contributors, `none` when there are none. -/
def dominantEmotion (f : PField) (contributing : List ℕ) : Option Vec :=
  let emo := contributing.filter (fun i => decide ((getP f i).category = ParticleCategory.EMOTION))
  if emo.isEmpty then none
  else some (vecScale (1 / (emo.length : ℚ)) (sumVecs (emo.map (fun i => (getP f i).position))))

/-- Set the `frozen` flag of the particle at arena index `i`
(`p.frozen = True` through a shared reference). -/
def freezeAt (f : PField) (i : ℕ) : PField := f.set i { getP f i with frozen := true }

/-- Freeze a list of particles in order. -/
def freezeMany (f : PField) (l : List ℕ) : PField := l.foldl freezeAt f

/-- The freezing pass of `nucleate` (nucleation.py lines 114-117). -/
def freezeAll (f : PField) (nuclei : List CrystalNucleus) : PField :=
  nuclei.foldl (fun fld nu => freezeMany fld nu.absorbed) f

/-- Embeds `nucleate` (nucleation.py lines 66-119): density peaks → nuclei, sorted
by strength descending, with every absorbed particle marked frozen.  The
`codebook` parameter is kept from the source signature; the source body
never uses it. -/
def nucleate (f : PField) (codebook : Codebook) (min_density_distance : ℚ) :
    List CrystalNucleus × PField :=
  let peaks := computeDensity f min_density_distance
  if peaks.isEmpty then ([], f)
  else
    let nuclei := peaks.map (fun pk =>
      { center := pk.position
        strength := pk.density
        emotional_charge := dominantEmotion f pk.contributing
        absorbed := pk.contributing
        label := topLabels (pk.contributing.map (fun i => splitHash (getP f i).label)) })
    let sorted := sortDescBy (fun nu => nu.strength) nuclei
    (sorted, freezeAll f sorted)

/-!
## Crystallization (crystallization.py)
-/

/-- Embeds `CrystalNucleus.total_charge` (nucleation.py lines 38-41). -/
def totalCharge (f : PField) (nu : CrystalNucleus) : ℚ :=
  (nu.absorbed.map (fun i => (getP f i).charge)).sum

/-- Embeds `CrystalNucleus.residual_temperature` (nucleation.py lines 43-48). -/
def residualTemperature (f : PField) (nu : CrystalNucleus) : ℚ :=
  if nu.absorbed.isEmpty then 0
  else (nu.absorbed.map (fun i => (getP f i).temperature)).sum / (nu.absorbed.length : ℚ)

/-- Embeds `_compute_attraction` (crystallization.py lines 70-85): cosine of center
and position (0 for a zero norm), clamped to 0 when non-positive, then
scaled by `1 + total_charge · charge · 0.01`. -/
def computeAttraction (f : PField) (nu : CrystalNucleus) (p : Particle) : ℚ :=
  let sim := simQ nu.center p.position
  if sim ≤ 0 then 0
  else sim * (1 + totalCharge f nu * p.charge * (1/100))

/-- Merging nucleus `b` into `a` in `_merge_nearby_nuclei` (crystallization.py
lines 140-147): concatenate particles, add strengths, particle-count-weighted
center (with the target count floored at 1), concatenated label. -/
def mergeInto (a b : CrystalNucleus) : CrystalNucleus :=
  let ni : ℚ := max (a.absorbed.length : ℚ) 1
  let nj : ℚ := (b.absorbed.length : ℚ)
  { a with
    absorbed := a.absorbed ++ b.absorbed
    strength := a.strength + b.strength
    center := vecScale (1 / (ni + nj)) (vecAdd (vecScale ni a.center) (vecScale nj b.center))
    label := a.label ++ "+" ++ b.label }

/-- The inner `while j` scan of `_merge_nearby_nuclei`: fold nucleus `a`
over the tail, absorbing every later nucleus within the threshold (the
center moves as merges happen, exactly as in the source's in-place loop). -/
def mergeScan (thr : ℚ) (a : CrystalNucleus) :
    List CrystalNucleus → CrystalNucleus × List CrystalNucleus
  | [] => (a, [])
  | b :: bs =>
    if thr ≤ simQ a.center b.center then mergeScan thr (mergeInto a b) bs
    else
      let r := mergeScan thr a bs
      (r.1, b :: r.2)

theorem mergeScan_length_le (thr : ℚ) (a : CrystalNucleus) (l : List CrystalNucleus) :
    (mergeScan thr a l).2.length ≤ l.length := by
  induction l generalizing a with
  | nil => simp [mergeScan]
  | cons b bs ih =>
    simp only [mergeScan]
    split
    · exact Nat.le_succ_of_le (ih _)
    · simpa using ih a

/-- Embeds `_merge_nearby_nuclei` (crystallization.py lines 128-151): the outer
`while i` loop. -/
def mergeNearby (thr : ℚ) : List CrystalNucleus → List CrystalNucleus
  | [] => []
  | a :: rest =>
    let r := mergeScan thr a rest
    r.1 :: mergeNearby thr r.2
termination_by l => l.length
decreasing_by
  simp only [List.length_cons]
  exact Nat.lt_succ_of_le (mergeScan_length_le _ _ _)

/-- One absorption of a free particle into a nucleus (crystallization.py
lines 238-244): append, freeze, running-mean center update. -/
def absorbStep (f : PField) (nu : CrystalNucleus) (i : ℕ) : CrystalNucleus × PField :=
  let p := getP f i
  let absorbed := nu.absorbed ++ [i]
  let n : ℚ := (absorbed.length : ℚ)
  ({ nu with
      absorbed := absorbed
      center := vecScale (1/n) (vecAdd (vecScale (n - 1) nu.center) p.position) },
   freezeAt f i)

/-- The inner `for particle in free` loop of the cooling pass
(crystallization.py lines 231-244) for one nucleus.  The accumulator carries
(nucleus, field, random-draw counter); a frozen particle is skipped before
any draw, an unfrozen one consumes one `rng.random()` draw. -/
def absorbOverFree (freeSnapshot : List ℕ) (temp : ℚ) (rng : ℕ → ℚ)
    (nu : CrystalNucleus) (f : PField) (k : ℕ) : CrystalNucleus × PField × ℕ :=
  freeSnapshot.foldl
    (fun acc i =>
      let p := getP acc.2.1 i
      if p.frozen then acc
      else
        let attraction := computeAttraction acc.2.1 acc.1 p
        let threshold := temp * rng acc.2.2
        if threshold < attraction then
          let r := absorbStep acc.2.1 acc.1 i
          (r.1, r.2, acc.2.2 + 1)
        else (acc.1, acc.2.1, acc.2.2 + 1))
    (nu, f, k)

/-- The `for nucleus in nuclei` loop of one cooling pass (crystallization.py
lines 231-244), threading the field and the draw counter left to right. -/
def absorbPass (freeSnapshot : List ℕ) (temp : ℚ) (rng : ℕ → ℚ)
    (nuclei : List CrystalNucleus) (f : PField) (k : ℕ) :
    List CrystalNucleus × PField × ℕ :=
  nuclei.foldl
    (fun acc nu =>
      let r := absorbOverFree freeSnapshot temp rng nu acc.2.1 acc.2.2
      (acc.1 ++ [r.1], r.2.1, r.2.2))
    ([], f, k)

/-- Iteration bound for the cooling loop: the Python `while` runs
`⌈(1 − min_temperature)/cooling_rate⌉` times (the loop condition is still
checked every iteration here, so the extra unit is slack).  A non-positive
cooling rate never terminates in the source — invalid configuration per the
spec — and receives zero iterations. -/
def coolFuel (cooling_rate min_temperature : ℚ) : ℕ :=
  if cooling_rate ≤ 0 then 0
  else (⌈(1 - min_temperature) / cooling_rate⌉).toNat + 1

/-- The cooling loop of `crystallize` (crystallization.py lines 226-248):
while the temperature is above the floor, snapshot the free particles
(break when none remain), run one absorption pass over every nucleus, then
re-merge nuclei at threshold 0.12 and cool. -/
def coolLoop (rng : ℕ → ℚ) (cooling_rate min_temperature : ℚ) :
    ℕ → ℚ → List CrystalNucleus → PField → ℕ → List CrystalNucleus × PField × ℕ
  | 0, _, nuclei, f, k => (nuclei, f, k)
  | fuel + 1, temp, nuclei, f, k =>
    if temp ≤ min_temperature then (nuclei, f, k)
    else
      let free := freeIdxs f
      if free.isEmpty then (nuclei, f, k)
      else
        let r := absorbPass free temp rng nuclei f k
        coolLoop rng cooling_rate min_temperature fuel (temp - cooling_rate)
          (mergeNearby (12/100) r.1) r.2.1 r.2.2

/-- First index of the nucleus maximizing the attraction of particle `p`
(Python `max(nuclei, key=...)`: the first maximal element wins). -/
def bestNucleusIdx (f : PField) (nuclei : List CrystalNucleus) (p : Particle) : ℕ :=
  (List.range nuclei.length).foldl
    (fun best j =>
      if computeAttraction f (nuclei.getD best default) p <
         computeAttraction f (nuclei.getD j default) p
      then j else best) 0

/-- Append a particle to a nucleus without a center update — the residual
absorption of crystallization.py lines 250-257. -/
def addAbsorbed (nu : CrystalNucleus) (i : ℕ) : CrystalNucleus :=
  { nu with absorbed := nu.absorbed ++ [i] }

/-- Residual absorption (crystallization.py lines 250-257): every particle
still free is assigned to the nucleus maximizing its attraction and frozen —
provided the nuclei list is non-empty (`if not particle.frozen and nuclei`). -/
def residualAbsorb (nuclei : List CrystalNucleus) (f : PField) :
    List CrystalNucleus × PField :=
  (freeIdxs f).foldl
    (fun acc i =>
      let p := getP acc.2 i
      if !p.frozen && !acc.1.isEmpty then
        let bi := bestNucleusIdx acc.2 acc.1 p
        (acc.1.set bi (addAbsorbed (acc.1.getD bi default) i), freezeAt acc.2 i)
      else acc)
    (nuclei, f)

/-- First index of minimal strength (Python `min(range(len(nuclei)),
key=...)`: first minimal index wins). -/
def smallestIdx (nuclei : List CrystalNucleus) : ℕ :=
  (List.range nuclei.length).foldl
    (fun best j =>
      if (nuclei.getD j default).strength < (nuclei.getD best default).strength
      then j else best) 0

/-- The merge-target search of `_force_merge_small` (crystallization.py
lines 98-109): scan every other nucleus, score `similarity + 0.1 · strength`,
keep the first strict maximum; `none` when no score exceeds the initial
−1.0 (the `best_target = -1` break). -/
def bestTargetIdx (nuclei : List CrystalNucleus) (si : ℕ) : Option ℕ :=
  let sm := nuclei.getD si default
  let score := fun j =>
    simQ sm.center (nuclei.getD j default).center + (1/10) * (nuclei.getD j default).strength
  (List.range nuclei.length).foldl
    (fun acc j =>
      if j = si then acc
      else
        match acc with
        | none => if (-1 : ℚ) < score j then some j else none
        | some b => if score b < score j then some j else some b)
    none

/-- Merging the smallest nucleus into its target in `_force_merge_small`
(crystallization.py lines 111-123): concatenate particles, add half the
strength, particle-count-weighted center (guarded by `n_t + n_s > 0`),
concatenated label. -/
def forceMergeInto (a b : CrystalNucleus) : CrystalNucleus :=
  let nt : ℚ := (a.absorbed.length : ℚ)
  let ns : ℚ := (b.absorbed.length : ℚ)
  { a with
    absorbed := a.absorbed ++ b.absorbed
    strength := a.strength + b.strength * (1/2)
    center := if 0 < nt + ns then
        vecScale (1 / (nt + ns)) (vecAdd (vecScale nt a.center) (vecScale ns b.center))
      else a.center
    label := a.label ++ "+" ++ b.label }

/-- Embeds `_force_merge_small` (crystallization.py lines 88-125): while the
nucleus count exceeds the cap, merge the weakest nucleus into its best
target; break when no target exists.  Every merge removes one nucleus, so
the initial length as fuel is never exhausted. -/
def forceMergeLoop (max_crystals : ℕ) : ℕ → List CrystalNucleus → List CrystalNucleus
  | 0, nuclei => nuclei
  | fuel + 1, nuclei =>
    if nuclei.length ≤ max_crystals then nuclei
    else
      let si := smallestIdx nuclei
      match bestTargetIdx nuclei si with
      | none => nuclei
      | some j =>
          let merged := forceMergeInto (nuclei.getD j default) (nuclei.getD si default)
          forceMergeLoop max_crystals fuel ((nuclei.set j merged).eraseIdx si)

/-- Arithmetic mean of the entries of a vector (`np.mean`). -/
def vecMean (v : Vec) : ℚ := if v.isEmpty then 0 else v.sum / (v.length : ℚ)

/-- Embeds `_compute_emotional_valence` (crystallization.py lines 154-158):
`clip(mean(emotional_charge), -1, 1)`, 0 without an emotional charge. -/
def emotionalValence (nu : CrystalNucleus) : ℚ :=
  match nu.emotional_charge with
  | none => 0
  | some v => max (-1) (min 1 (vecMean v))

/-- Embeds `label.split("#")[0].split("~")[0].split("+")[0]` (crystallization.py
lines 64, 270). -/
def baseConcept (s : String) : String :=
  ⟨((s.data.takeWhile (fun c => c ≠ '#')).takeWhile (fun c => c ≠ '~')).takeWhile
    (fun c => c ≠ '+')⟩

/-- Count of distinct non-empty base concepts among the absorbed particles
(the `unique_concepts` set of crystallization.py lines 266-272). -/
def uniqueConceptCount (f : PField) (nu : CrystalNucleus) : ℕ :=
  (((nu.absorbed.map (fun i => baseConcept (getP f i).label)).filter
    (fun s => decide (s ≠ ""))).dedup).length

/-- A crystallized thought-chunk (crystallization.py lines 28-67).
The source's `contrast_partner` and `children` are object references into
the crystal list; the embedding represents them arena-style, as indices
into the crystal list current when they are assigned (shape detection for
the partner, the pre-nesting list for children) — the index form of the
same ownership structure. -/
structure Crystal where
  nucleus : CrystalNucleus
  shape : String
  element_count : ℕ
  emotional_charge : ℚ
  residual_temperature : ℚ
  contrast_partner : Option ℕ
  children : List ℕ
deriving DecidableEq

/-- Building the surviving crystals (crystallization.py lines 262-280):
a nucleus with no absorbed particles is skipped. -/
def buildCrystals (f : PField) (nuclei : List CrystalNucleus) : List Crystal :=
  nuclei.filterMap (fun nu =>
    if nu.absorbed.isEmpty then none
    else some
      { nucleus := nu
        shape := "simple"
        element_count := uniqueConceptCount f nu
        emotional_charge := emotionalValence nu
        residual_temperature := residualTemperature f nu
        contrast_partner := none
        children := [] })

/-- Embeds `_detect_shapes` (crystallization.py lines 161-197): fragment for at
most one concept; otherwise the first other crystal with center similarity
below 0.05 or emotional difference above 0.3 makes it a contrast pair;
otherwise parallel (≥ 4 concepts), simple (≥ 2) or fragment. -/
def contrastWith (c : Crystal) (d : Crystal) : Bool :=
  decide (simQ c.nucleus.center d.nucleus.center < 1/20) ||
  decide (3/10 < |c.emotional_charge - d.emotional_charge|)

/-- Shape of one crystal given its index and the whole list (the body of
the `for crystal in crystals` loop of `_detect_shapes`). -/
def shapeOf (crystals : List Crystal) (i : ℕ) (c : Crystal) : Crystal :=
  if c.element_count ≤ 1 then { c with shape := "fragment" }
  else
    match crystals.enum.find? (fun jc => decide (jc.1 ≠ i) && contrastWith c jc.2) with
    | some jc => { c with shape := "contrast", contrast_partner := some jc.1 }
    | none =>
      if 4 ≤ c.element_count then { c with shape := "parallel" }
      else if 2 ≤ c.element_count then { c with shape := "simple" }
      else { c with shape := "fragment" }

def detectShapes (crystals : List Crystal) : List Crystal :=
  crystals.enum.map (fun ic => shapeOf crystals ic.1 ic.2)

/-- The parent search of `_recursive_nest` (crystallization.py lines
314-327): best similarity above the 0.25 threshold among crystals with at
least `min_parent_elements = 3` concepts; first strict maximum wins. -/
def nestParentIdx (crystals : List Crystal) (i : ℕ) (c : Crystal) : Option ℕ :=
  (crystals.enum.foldl
    (fun acc jc =>
      if jc.1 = i ∨ jc.2.element_count < 3 then acc
      else
        let sim := simQ c.nucleus.center jc.2.nucleus.center
        if acc.1 < sim then (sim, some jc.1) else acc)
    ((1/4 : ℚ), none)).2

/-- Embeds `_recursive_nest` (crystallization.py lines 294-336): crystals with at
most 2 concepts attach as children (pre-nest indices, ascending — the
source's append order) of their best parent and leave the top level. -/
def recursiveNest (crystals : List Crystal) : List Crystal :=
  if crystals.length < 2 then crystals
  else
    let assignments := crystals.enum.map (fun ic =>
      if ic.2.element_count ≤ 2 then nestParentIdx crystals ic.1 ic.2 else none)
    crystals.enum.filterMap (fun jc =>
      if (assignments.getD jc.1 none).isSome then none
      else some { jc.2 with children := jc.2.children ++
        ((List.range crystals.length).filter
          (fun i => decide (assignments.getD i none = some jc.1))) })

/-- Embeds `crystallize` (crystallization.py lines 200-291): short-circuit on an
empty nuclei list; else pre-merge at 0.15, run the cooling loop, forcibly
absorb the residual free particles, force-merge down to `max_crystals`,
build crystals, detect shapes, nest, and sort by strength descending.
`rng` is the `np.random.RandomState(42)` draw stream; the source defaults
are `cooling_rate = 0.05`, `min_temperature = 0.01`, `max_crystals = 4`.
The returned pair is (crystals, final particle arena); the `codebook`
parameter is used by the source only through the static `similarity`,
embedded as `simQ`. -/
def crystallize (f : PField) (nuclei : List CrystalNucleus) (codebook : Codebook)
    (rng : ℕ → ℚ) (cooling_rate min_temperature : ℚ) (max_crystals : ℕ) :
    List Crystal × PField :=
  if nuclei.isEmpty then ([], f)
  else
    let nuclei1 := mergeNearby (15/100) nuclei
    let r := coolLoop rng cooling_rate min_temperature
      (coolFuel cooling_rate min_temperature) 1 nuclei1 f 0
    let r2 := residualAbsorb r.1 r.2.1
    let nuclei4 := forceMergeLoop max_crystals r2.1.length r2.1
    let crystals := buildCrystals r2.2 nuclei4
    (sortDescBy (fun c => c.nucleus.strength) (recursiveNest (detectShapes crystals)), r2.2)

/-!
## Vector algebra lemmas
-/

theorem dotV_cons (x y : ℚ) (a b : Vec) : dotV (x :: a) (y :: b) = x * y + dotV a b := by
  simp [dotV]

theorem bipolar_normSq {a : Vec} (ha : Bipolar a) : normSq a = (a.length : ℚ) := by
  induction a with
  | nil => simp [normSq, dotV]
  | cons x l ih =>
    have hx := ha x (List.mem_cons_self x l)
    have hl : Bipolar l := fun y hy => ha y (List.mem_cons_of_mem x hy)
    have h2 : normSq l = (l.length : ℚ) := ih hl
    have hxx : x * x = 1 := by rcases hx with h | h <;> simp [h]
    show dotV (x :: l) (x :: l) = _
    rw [dotV_cons, hxx, show dotV l l = normSq l from rfl, h2]
    push_cast [List.length_cons]
    ring

theorem dotV_le_length {a b : Vec} (ha : Bipolar a) (hb : Bipolar b)
    (hlen : a.length = b.length) : dotV a b ≤ (a.length : ℚ) := by
  induction a generalizing b with
  | nil => simp [dotV]
  | cons x l ih =>
    cases b with
    | nil => simp at hlen
    | cons y m =>
      have hx := ha x (List.mem_cons_self x l)
      have hy := hb y (List.mem_cons_self y m)
      have hl : Bipolar l := fun z hz => ha z (List.mem_cons_of_mem x hz)
      have hm : Bipolar m := fun z hz => hb z (List.mem_cons_of_mem y hz)
      have hlen' : l.length = m.length := by simpa using hlen
      have hrec := ih hl hm hlen'
      have hxy : x * y ≤ 1 := by rcases hx with h | h <;> rcases hy with h' | h' <;> simp [h, h']
      have hcast : ((x :: l).length : ℚ) = (l.length : ℚ) + 1 := by
        push_cast [List.length_cons]; ring
      rw [dotV_cons, hcast]
      linarith

theorem dotV_eq_length_iff {a b : Vec} (ha : Bipolar a) (hb : Bipolar b)
    (hlen : a.length = b.length) : dotV a b = (a.length : ℚ) ↔ a = b := by
  induction a generalizing b with
  | nil =>
    cases b with
    | nil => simp [dotV]
    | cons y m => simp at hlen
  | cons x l ih =>
    cases b with
    | nil => simp at hlen
    | cons y m =>
      have hx := ha x (List.mem_cons_self x l)
      have hy := hb y (List.mem_cons_self y m)
      have hl : Bipolar l := fun z hz => ha z (List.mem_cons_of_mem x hz)
      have hm : Bipolar m := fun z hz => hb z (List.mem_cons_of_mem y hz)
      have hlen' : l.length = m.length := by simpa using hlen
      have hrec := ih hl hm hlen'
      have hdle := dotV_le_length hl hm hlen'
      have hxy : x * y ≤ 1 := by rcases hx with h | h <;> rcases hy with h' | h' <;> simp [h, h']
      have hcast : ((x :: l).length : ℚ) = (l.length : ℚ) + 1 := by
        push_cast [List.length_cons]; ring
      constructor
      · intro h
        rw [dotV_cons, hcast] at h
        have hxy1 : x * y = 1 := by linarith
        have hd : dotV l m = (l.length : ℚ) := by linarith
        have hxeq : x = y := by
          rcases hx with h' | h' <;> rcases hy with h'' | h'' <;> subst h' <;> subst h'' <;>
            first | rfl | (exfalso; norm_num at hxy1)
        rw [hxeq, hrec.mp hd]
      · intro h
        injection h with h1 h2
        subst h1; subst h2
        rw [dotV_cons, hcast]
        have hxx : x * x = 1 := by rcases hx with h' | h' <;> simp [h']
        rw [hxx, hrec.mpr rfl]
        ring

theorem dotV_lt_length {a b : Vec} (ha : Bipolar a) (hb : Bipolar b)
    (hlen : a.length = b.length) (hne : a ≠ b) : dotV a b < (a.length : ℚ) :=
  lt_of_le_of_ne (dotV_le_length ha hb hlen)
    (fun h => hne ((dotV_eq_length_iff ha hb hlen).mp h))

theorem similarityR_eq_div {a b : Vec} (ha : Bipolar a) (hb : Bipolar b)
    (hlen : a.length = b.length) :
    similarityR a b = (dotV a b : ℝ) / (a.length : ℝ) := by
  rcases Nat.eq_zero_or_pos a.length with h0 | hpos
  · have hanil : a = [] := List.eq_nil_of_length_eq_zero h0
    have hbnil : b = [] := List.eq_nil_of_length_eq_zero (hlen ▸ h0)
    subst hanil; subst hbnil
    simp [similarityR, normSq, dotV]
  · have hq : (0 : ℚ) < (a.length : ℚ) := by exact_mod_cast hpos
    have hna : normSq a = (a.length : ℚ) := bipolar_normSq ha
    have hnb : normSq b = (b.length : ℚ) := bipolar_normSq hb
    have hne : ¬ (normSq a = 0 ∨ normSq b = 0) := by
      push_neg
      constructor
      · rw [hna]; exact hq.ne'
      · rw [hnb, ← hlen]; exact hq.ne'
    rw [similarityR, if_neg hne, hna, hnb, ← hlen]
    have hcast : (((a.length : ℚ) : ℝ)) = (a.length : ℝ) := by push_cast; ring
    rw [hcast, Real.mul_self_sqrt (by positivity)]

theorem similarityR_eq_simQ {a b : Vec} (ha : Bipolar a) (hb : Bipolar b)
    (hlen : a.length = b.length) : similarityR a b = ((simQ a b : ℚ) : ℝ) := by
  rw [similarityR_eq_div ha hb hlen, simQ]
  rcases Nat.eq_zero_or_pos a.length with h0 | hpos
  · simp [h0, List.eq_nil_of_length_eq_zero h0, dotV]
  · rw [if_neg (by omega : ¬ a.length = 0)]
    push_cast
    ring

theorem similarityR_self {a : Vec} (ha : Bipolar a) (hpos : 0 < a.length) :
    similarityR a a = 1 := by
  rw [similarityR_eq_div ha ha rfl, show dotV a a = normSq a from rfl, bipolar_normSq ha]
  have h : (0 : ℝ) < (a.length : ℝ) := by exact_mod_cast hpos
  push_cast
  field_simp

theorem bind_bind_cancel {a b : Vec} (hb : Bipolar b) (hlen : a.length = b.length) :
    bind (bind a b) b = a := by
  induction a generalizing b with
  | nil =>
    cases b with
    | nil => rfl
    | cons y m => simp at hlen
  | cons x l ih =>
    cases b with
    | nil => simp at hlen
    | cons y m =>
      have hy := hb y (List.mem_cons_self y m)
      have hm : Bipolar m := fun z hz => hb z (List.mem_cons_of_mem y hz)
      have hlen' : l.length = m.length := by simpa using hlen
      have hyy : y * y = 1 := by rcases hy with h | h <;> simp [h]
      show (x * y * y) :: bind (bind l m) m = x :: l
      rw [mul_assoc, hyy, mul_one, ih hm hlen']

/-- C3: for all bipolar vectors `a` and `b` of the same (positive) dimension,
`bind (bind a b) b` recovers `a` exactly, hence with cosine similarity 1 >
0.99 — bind is self-inverse. -/
theorem spec_c3_bind_self_inverse (a b : Vec) (ha : Bipolar a) (hb : Bipolar b)
    (hlen : a.length = b.length) (hpos : 0 < a.length) :
    bind (bind a b) b = a ∧ (99/100 : ℝ) < similarityR (bind (bind a b) b) a := by
  have key : bind (bind a b) b = a := bind_bind_cancel hb hlen
  refine ⟨key, ?_⟩
  rw [key, similarityR_self ha hpos]
  norm_num

theorem spec_c3_witness :
    bind (bind [1, -1] [1, 1]) [1, 1] = ([1, -1] : Vec) ∧
    (99/100 : ℝ) < similarityR (bind (bind [1, -1] [1, 1]) [1, 1]) [1, -1] :=
  spec_c3_bind_self_inverse [1, -1] [1, 1] (by decide) (by decide) (by decide) (by decide)

theorem bipolar_getD {v : Vec} (hv : Bipolar v) {i : ℕ} (hi : i < v.length) :
    v.getD i 0 = 1 ∨ v.getD i 0 = -1 := by
  rw [List.getD_eq_getElem _ _ hi]
  exact hv _ (List.getElem_mem hi)

theorem foldl_vecAdd_length {m : ℕ} :
    ∀ (rest : List Vec) (v : Vec), v.length = m → (∀ u ∈ rest, u.length = m) →
      (rest.foldl vecAdd v).length = m := by
  intro rest
  induction rest with
  | nil => intro v hv _; simpa using hv
  | cons u us ih =>
    intro v hv hall
    simp only [List.foldl_cons]
    apply ih
    · simp [vecAdd, hv, hall u (List.mem_cons_self u us)]
    · intro z hz; exact hall z (List.mem_cons_of_mem u hz)

theorem foldl_vecAdd_getD {m : ℕ} (i : ℕ) (hi : i < m) :
    ∀ (rest : List Vec) (v : Vec), v.length = m → (∀ u ∈ rest, u.length = m) →
      (rest.foldl vecAdd v).getD i 0 = v.getD i 0 + (rest.map (fun u => u.getD i 0)).sum := by
  intro rest
  induction rest with
  | nil => intro v hv _; simp
  | cons u us ih =>
    intro v hv hall
    have hu := hall u (List.mem_cons_self u us)
    have hrest : ∀ z ∈ us, z.length = m := fun z hz => hall z (List.mem_cons_of_mem u hz)
    have hvu : (vecAdd v u).length = m := by simp [vecAdd, hv, hu]
    simp only [List.foldl_cons, List.map_cons, List.sum_cons]
    rw [ih (vecAdd v u) hvu hrest]
    have hadd : (vecAdd v u).getD i 0 = v.getD i 0 + u.getD i 0 := by
      have h1 : i < v.length := hv ▸ hi
      have h2 : i < u.length := hu ▸ hi
      have h3 : i < (vecAdd v u).length := hvu ▸ hi
      rw [List.getD_eq_getElem _ _ h3, List.getD_eq_getElem _ _ h1, List.getD_eq_getElem _ _ h2]
      simp [vecAdd]
    rw [hadd]; ring

theorem colsum_bound {m : ℕ} {v : Vec} (hv : Bipolar v) (hvlen : v.length = m)
    (i : ℕ) (hi : i < m) :
    ∀ (vs : List Vec), (∀ u ∈ vs, Bipolar u ∧ u.length = m) →
      |(vs.map (fun u => u.getD i 0)).sum - (vs.count v : ℚ) * v.getD i 0| ≤
        (vs.length : ℚ) - (vs.count v : ℚ) := by
  intro vs
  induction vs with
  | nil => simp
  | cons u us ih =>
    intro hall
    have hu := hall u (List.mem_cons_self u us)
    have hus : ∀ z ∈ us, Bipolar z ∧ z.length = m :=
      fun z hz => hall z (List.mem_cons_of_mem u hz)
    have hrec := ih hus
    have hclen : (us.count v : ℚ) ≤ (us.length : ℚ) := by
      exact_mod_cast List.count_le_length v us
    by_cases huv : u = v
    · subst huv
      rw [List.count_cons_self]
      simp only [List.map_cons, List.sum_cons, List.length_cons]
      push_cast
      have heq : u.getD i 0 + (us.map (fun z => z.getD i 0)).sum -
          ((us.count u : ℚ) + 1) * u.getD i 0 =
          (us.map (fun z => z.getD i 0)).sum - (us.count u : ℚ) * u.getD i 0 := by ring
      rw [heq]
      have := hrec
      linarith [hrec]
    · have hne : v ≠ u := fun h => huv h.symm
      rw [List.count_cons_of_ne hne]
      simp only [List.map_cons, List.sum_cons, List.length_cons]
      push_cast
      have habs1 : |u.getD i 0| = 1 := by
        rcases bipolar_getD hu.1 (hu.2 ▸ hi) with h | h <;> rw [h] <;> norm_num
      have htri : |u.getD i 0 + (us.map (fun z => z.getD i 0)).sum -
          (us.count v : ℚ) * v.getD i 0| ≤
          |u.getD i 0| + |(us.map (fun z => z.getD i 0)).sum -
            (us.count v : ℚ) * v.getD i 0| := by
        have := abs_add (u.getD i 0)
          ((us.map (fun z => z.getD i 0)).sum - (us.count v : ℚ) * v.getD i 0)
        calc |u.getD i 0 + (us.map (fun z => z.getD i 0)).sum -
            (us.count v : ℚ) * v.getD i 0|
            = |u.getD i 0 + ((us.map (fun z => z.getD i 0)).sum -
              (us.count v : ℚ) * v.getD i 0)| := by ring_nf
          _ ≤ _ := this
      rw [habs1] at htri
      linarith [hrec]

theorem bundle_majority (rnd : ℕ → Bool) {vs : List Vec} {v : Vec}
    (hall : ∀ u ∈ vs, Bipolar u ∧ u.length = v.length)
    (hv : Bipolar v) (hmaj : vs.length < 2 * vs.count v) :
    bundle rnd vs = v := by
  have hcpos : 0 < vs.count v := by omega
  have hvs : vs ≠ [] := by
    intro h; rw [h] at hcpos; simp at hcpos
  obtain ⟨w, rest, rfl⟩ : ∃ w rest, vs = w :: rest := by
    cases vs with
    | nil => exact absurd rfl hvs
    | cons w rest => exact ⟨w, rest, rfl⟩
  have hw := hall w (List.mem_cons_self w rest)
  have hrest : ∀ z ∈ rest, z.length = v.length :=
    fun z hz => (hall z (List.mem_cons_of_mem w hz)).2
  have hslen : (sumVecs (w :: rest)).length = v.length :=
    foldl_vecAdd_length rest w hw.2 hrest
  have hblen : (bundle rnd (w :: rest)).length = v.length := by
    simp [bundle, hslen]
  apply List.ext_getElem hblen
  intro i h1 h2
  have hi : i < v.length := h2
  have hcol : (sumVecs (w :: rest)).getD i 0 =
      ((w :: rest).map (fun u => u.getD i 0)).sum := by
    show (rest.foldl vecAdd w).getD i 0 = _
    rw [foldl_vecAdd_getD i hi rest w hw.2 hrest]
    simp
  have hbound := colsum_bound hv rfl i hi (w :: rest) hall
  set S := ((w :: rest).map (fun u => u.getD i 0)).sum with hS
  set c := ((w :: rest).count v : ℚ) with hc
  set L := (((w :: rest).length : ℕ) : ℚ) with hL
  have habs := abs_le.mp hbound
  have hLc : L < 2 * c := by
    rw [hc, hL]; exact_mod_cast hmaj
  have hgetb : (bundle rnd (w :: rest))[i] =
      (if (sumVecs (w :: rest)).getD i 0 = 0 then (if rnd i then 1 else -1)
       else signQ ((sumVecs (w :: rest)).getD i 0)) := by
    simp [bundle]
  have hveq : v[i] = v.getD i 0 := (List.getD_eq_getElem _ _ hi).symm
  rw [hgetb, hveq, hcol]
  rcases bipolar_getD hv hi with hval | hval
  · have hSpos : 0 < S := by rw [hval] at habs; linarith [habs.1]
    rw [if_neg (by linarith), signQ, if_pos hSpos, hval]
  · have hSneg : S < 0 := by rw [hval] at habs; linarith [habs.2]
    rw [if_neg (by linarith), signQ, if_neg (by linarith), if_pos hSneg, hval]

/-- C4: for distinct bipolar vectors `a`, `b` of one dimension,
`bundle(a,a,b)` is strictly closer (in cosine) to `a` than to `b`; and in
general the bundle of any input list is strictly closer to a vector
occurring a strict majority of times among the inputs than to any other
bipolar vector of that dimension.  Both hold for every draw stream `rnd`
(the zero-replacement branch of `bundle` is never taken under a strict
majority). -/
theorem spec_c4_bundle_majority (rnd : ℕ → Bool) (a b : Vec) (vs : List Vec) (v w : Vec)
    (ha : Bipolar a) (hb : Bipolar b) (hab : a.length = b.length) (hne : a ≠ b)
    (hall : ∀ u ∈ vs, Bipolar u ∧ u.length = v.length)
    (hv : Bipolar v) (hw : Bipolar w) (hwlen : w.length = v.length) (hwv : w ≠ v)
    (hmaj : vs.length < 2 * vs.count v) (hvpos : 0 < v.length) :
    similarityR (bundle rnd [a, a, b]) b < similarityR (bundle rnd [a, a, b]) a ∧
    similarityR (bundle rnd vs) w < similarityR (bundle rnd vs) v := by
  constructor
  · have hapos : 0 < a.length := by
      rcases Nat.eq_zero_or_pos a.length with h0 | h
      · have hanil : a = [] := List.eq_nil_of_length_eq_zero h0
        have hbnil : b = [] := List.eq_nil_of_length_eq_zero (hab ▸ h0)
        exact absurd (hanil.trans hbnil.symm) hne
      · exact h
    have hmemb : a ∉ [b] := by
      intro h; exact hne (by simpa using h)
    have hcount : List.count a [a, a, b] = 2 := by
      rw [show ([a, a, b] : List Vec) = a :: a :: [b] from rfl,
        List.count_cons_self, List.count_cons_self,
        List.count_eq_zero_of_not_mem hmemb]
    have hall' : ∀ u ∈ [a, a, b], Bipolar u ∧ u.length = a.length := by
      intro u hu
      simp only [List.mem_cons, List.not_mem_nil, or_false] at hu
      rcases hu with rfl | rfl | rfl
      · exact ⟨ha, rfl⟩
      · exact ⟨ha, rfl⟩
      · exact ⟨hb, hab.symm⟩
    have hb1 : bundle rnd [a, a, b] = a :=
      bundle_majority rnd hall' ha (by rw [hcount]; norm_num)
    rw [hb1, similarityR_self ha hapos, similarityR_eq_div ha hb hab]
    have hlr : (0 : ℝ) < (a.length : ℝ) := by exact_mod_cast hapos
    rw [div_lt_one hlr]
    exact_mod_cast dotV_lt_length ha hb hab hne
  · have hb2 : bundle rnd vs = v := bundle_majority rnd hall hv hmaj
    have hvw : v ≠ w := fun h => hwv h.symm
    rw [hb2, similarityR_self hv hvpos, similarityR_eq_div hv hw hwlen.symm]
    have hlr : (0 : ℝ) < (v.length : ℝ) := by exact_mod_cast hvpos
    rw [div_lt_one hlr]
    exact_mod_cast dotV_lt_length hv hw hwlen.symm hvw

theorem spec_c4_witness :
    similarityR (bundle (fun _ => true) [[1, 1], [1, 1], [1, -1]]) [1, -1] <
      similarityR (bundle (fun _ => true) [[1, 1], [1, 1], [1, -1]]) [1, 1] ∧
    similarityR (bundle (fun _ => true) [[1, 1], [1, 1], [1, -1]]) [1, -1] <
      similarityR (bundle (fun _ => true) [[1, 1], [1, 1], [1, -1]]) [1, 1] :=
  spec_c4_bundle_majority (fun _ => true) [1, 1] [1, -1] [[1, 1], [1, 1], [1, -1]]
    [1, 1] [1, -1] (by decide) (by decide) (by decide) (by decide)
    (by intro u hu
        simp only [List.mem_cons, List.not_mem_nil, or_false] at hu
        rcases hu with rfl | rfl | rfl
        · exact ⟨by decide, by decide⟩
        · exact ⟨by decide, by decide⟩
        · exact ⟨by decide, by decide⟩)
    (by decide) (by decide) (by decide) (by decide)
    (by decide) (by decide)

namespace Codebook

theorem mem_of_lookup_eq_some {l : List (String × ℕ)} {a : String} {b : ℕ}
    (h : l.lookup a = some b) : (a, b) ∈ l := by
  induction l with
  | nil => simp [List.lookup] at h
  | cons p t ih =>
    rw [List.lookup] at h
    split at h
    · next heq =>
      have h1 : a = p.1 := eq_of_beq heq
      have h2 : p.2 = b := Option.some.inj h
      have : p = (a, b) := by
        rcases p with ⟨k, v⟩
        simp at h1 h2
        simp [h1, h2]
      rw [← this]
      exact List.mem_cons_self p t
    · exact List.mem_cons_of_mem _ (ih h)

theorem lookup_cons_self {t : List (String × ℕ)} {s : String} {addr : ℕ} :
    ((s, addr) :: t).lookup s = some addr := by
  rw [List.lookup]
  simp

theorem genVec_bipolar (dim seed : Int) (s : String) : Bipolar (genVec dim seed s) := by
  intro x hx
  simp only [genVec, List.mem_map, List.mem_range] at hx
  obtain ⟨i, -, hi⟩ := hx
  split at hi
  · left; exact hi.symm
  · right; exact hi.symm

theorem genVec_length (dim seed : Int) (s : String) :
    (genVec dim seed s).length = dim.toNat := by
  simp [genVec]

theorem noiseVec_bipolar (dim : Int) (s : String) (i : ℕ) : Bipolar (noiseVec dim s i) := by
  intro x hx
  simp only [noiseVec, List.mem_map, List.mem_range] at hx
  obtain ⟨j, -, hj⟩ := hx
  split at hj
  · left; exact hj.symm
  · right; exact hj.symm

theorem noiseVec_length (dim : Int) (s : String) (i : ℕ) :
    (noiseVec dim s i).length = dim.toNat := by
  simp [noiseVec]

/-- Master lemma on one `encode` call from a well-formed codebook: the
returned address is cached under the symbol, live, and holds a bipolar
vector of the configured dimension; well-formedness is preserved and the
configuration is untouched. -/
theorem encode_spec (cb : Codebook) (s : String) (hwf : WF cb) :
    (cb.encode s).2.memory.lookup s = some (cb.encode s).1 ∧
    (cb.encode s).1 < (cb.encode s).2.heap.length ∧
    Bipolar (readHeap (cb.encode s).2 (cb.encode s).1) ∧
    (readHeap (cb.encode s).2 (cb.encode s).1).length = cb.dim.toNat ∧
    (cb.encode s).2.dim = cb.dim ∧ WF (cb.encode s).2 := by
  rcases hmem : cb.memory.lookup s with _ | addr
  · -- cache miss: a fresh vector is generated and appended
    have henc : cb.encode s =
        (cb.heap.length,
          { cb with memory := (s, cb.heap.length) :: cb.memory,
                    heap := cb.heap ++ [genVec cb.dim cb.seed s] }) := by
      rw [encode, hmem]
    rw [henc]
    have hlen : cb.heap.length < (cb.heap ++ [genVec cb.dim cb.seed s]).length := by
      simp
    have hread : readHeap
        { cb with memory := (s, cb.heap.length) :: cb.memory,
                  heap := cb.heap ++ [genVec cb.dim cb.seed s] } cb.heap.length =
        genVec cb.dim cb.seed s := by
      rw [readHeap]
      rw [List.getD_eq_getElem _ _ hlen]
      exact List.getElem_concat_length _ _ _ rfl _
    refine ⟨lookup_cons_self, hlen, ?_, ?_, rfl, ?_⟩
    · rw [hread]; exact genVec_bipolar _ _ _
    · rw [hread]; exact genVec_length _ _ _
    · intro p hp
      rcases List.mem_cons.mp hp with rfl | hold
      · refine ⟨hlen, ?_, ?_⟩
        · rw [show ((cb.heap ++ [genVec cb.dim cb.seed s]).getD cb.heap.length []) =
              genVec cb.dim cb.seed s from by
            rw [List.getD_eq_getElem _ _ hlen]
            exact List.getElem_concat_length _ _ _ rfl _]
          exact genVec_bipolar _ _ _
        · rw [show ((cb.heap ++ [genVec cb.dim cb.seed s]).getD cb.heap.length []) =
              genVec cb.dim cb.seed s from by
            rw [List.getD_eq_getElem _ _ hlen]
            exact List.getElem_concat_length _ _ _ rfl _]
          exact genVec_length _ _ _
      · obtain ⟨hplt, hpbip, hplen⟩ := hwf p hold
        have hlt : p.2 < (cb.heap ++ [genVec cb.dim cb.seed s]).length := by
          simp; omega
        have hsame : (cb.heap ++ [genVec cb.dim cb.seed s]).getD p.2 [] =
            cb.heap.getD p.2 [] := by
          rw [List.getD_eq_getElem _ _ hlt, List.getD_eq_getElem _ _ hplt]
          exact List.getElem_append_left hplt
        exact ⟨hlt, by rw [hsame]; exact hpbip, by rw [hsame]; exact hplen⟩
  · -- cache hit: the stored reference is returned, state unchanged
    have henc : cb.encode s = (addr, cb) := by rw [encode, hmem]
    rw [henc]
    obtain ⟨hlt, hbip, hlen⟩ := hwf (s, addr) (mem_of_lookup_eq_some hmem)
    exact ⟨hmem, hlt, hbip, hlen, rfl, hwf⟩

theorem wf_init (dim seed : Int) : WF (init dim seed) := by
  intro p hp
  simp [init] at hp

end Codebook

/-- C2: on a codebook whose cache is intact (the invariant of every state
reachable through the public interface), `encode(s)` called twice returns
the identical vector — in the heap model the very same array reference,
with the codebook state unchanged by the second call — and every element of
the returned vector is exactly −1 or +1. -/
theorem spec_c2_encode_cached (cb : Codebook) (s : String) (hwf : Codebook.WF cb) :
    ((cb.encode s).2.encode s).1 = (cb.encode s).1 ∧
    ((cb.encode s).2.encode s).2 = (cb.encode s).2 ∧
    Bipolar (Codebook.readHeap (cb.encode s).2 (cb.encode s).1) := by
  obtain ⟨hlook, hlt, hbip, hlen, hdim, hwf'⟩ := Codebook.encode_spec cb s hwf
  have h2 : (cb.encode s).2.encode s = ((cb.encode s).1, (cb.encode s).2) := by
    rw [Codebook.encode, hlook]
  rw [h2]
  exact ⟨rfl, rfl, hbip⟩

theorem spec_c2_witness :
    (((Codebook.init 2 42).encode "a").2.encode "a").1 =
      ((Codebook.init 2 42).encode "a").1 ∧
    (((Codebook.init 2 42).encode "a").2.encode "a").2 =
      ((Codebook.init 2 42).encode "a").2 ∧
    Bipolar (Codebook.readHeap ((Codebook.init 2 42).encode "a").2
      ((Codebook.init 2 42).encode "a").1) :=
  spec_c2_encode_cached (Codebook.init 2 42) "a" (by decide)

/-- C7 (amended): `encode` hands out a direct reference to the cached array,
not an isolated copy: a second `encode(s)` returns the same reference, so
after a caller writes `w` through it, the subsequent `encode(s)` yields a
vector reading back as `w` — the cache is not insulated from caller
mutation. -/
theorem spec_c7_alias_amended (cb : Codebook) (s : String) (w : Vec)
    (hwf : Codebook.WF cb) :
    ((Codebook.writeHeap (cb.encode s).2 (cb.encode s).1 w).encode s).1 =
      (cb.encode s).1 ∧
    Codebook.readHeap ((Codebook.writeHeap (cb.encode s).2 (cb.encode s).1 w).encode s).2
      ((Codebook.writeHeap (cb.encode s).2 (cb.encode s).1 w).encode s).1 = w := by
  obtain ⟨hlook, hlt, hbip, hlen, hdim, hwf'⟩ := Codebook.encode_spec cb s hwf
  have hlook2 : (Codebook.writeHeap (cb.encode s).2 (cb.encode s).1 w).memory.lookup s =
      some (cb.encode s).1 := hlook
  have henc : (Codebook.writeHeap (cb.encode s).2 (cb.encode s).1 w).encode s =
      ((cb.encode s).1, Codebook.writeHeap (cb.encode s).2 (cb.encode s).1 w) := by
    rw [Codebook.encode, hlook2]
  rw [henc]
  refine ⟨rfl, ?_⟩
  show ((cb.encode s).2.heap.set (cb.encode s).1 w).getD (cb.encode s).1 [] = w
  have hlt' : (cb.encode s).1 < ((cb.encode s).2.heap.set (cb.encode s).1 w).length := by
    simpa using hlt
  rw [List.getD_eq_getElem _ _ hlt']
  exact List.getElem_set_self _

theorem spec_c7_witness :
    ((Codebook.writeHeap ((Codebook.init 2 42).encode "x").2
        ((Codebook.init 2 42).encode "x").1 [5, 5]).encode "x").1 =
      ((Codebook.init 2 42).encode "x").1 ∧
    Codebook.readHeap
        ((Codebook.writeHeap ((Codebook.init 2 42).encode "x").2
          ((Codebook.init 2 42).encode "x").1 [5, 5]).encode "x").2
        ((Codebook.writeHeap ((Codebook.init 2 42).encode "x").2
          ((Codebook.init 2 42).encode "x").1 [5, 5]).encode "x").1 = [5, 5] :=
  spec_c7_alias_amended (Codebook.init 2 42) "x" [5, 5] (by decide)

/-- C7 (counterexample to the claim as stated): on the fresh codebook of
dimension 2, after a caller overwrites the array returned for `"x"` with
`[5, 5]`, the subsequent `encode "x"` does **not** return the original
unmutated vector — it reads back the caller's garbage. -/
theorem spec_c7_counterexample :
    Codebook.readHeap
        ((Codebook.writeHeap ((Codebook.init 2 42).encode "x").2
          ((Codebook.init 2 42).encode "x").1 [5, 5]).encode "x").2
        ((Codebook.writeHeap ((Codebook.init 2 42).encode "x").2
          ((Codebook.init 2 42).encode "x").1 [5, 5]).encode "x").1
      ≠ Codebook.readHeap ((Codebook.init 2 42).encode "x").2
          ((Codebook.init 2 42).encode "x").1 := by
  decide

/-- C8: `Codebook.__init__` performs no validation whatsoever — constructing
with the invalid dimension −1 succeeds and yields an ordinary codebook
state recording `dim = -1` (no fail-fast error exists in the source; the
claimed construction-time error is absent). -/
theorem spec_c8_init_no_validation :
    (Codebook.init (-1) 42).dim = -1 ∧ (Codebook.init (-1) 42).memory = [] ∧
    (Codebook.init (-1) 42).heap = [] :=
  ⟨rfl, rfl, rfl⟩

theorem sign_mix {b no : ℚ} (hb : b = 1 ∨ b = -1) (hn : no = 1 ∨ no = -1) :
    signQ (7/10 * b + 3/10 * no) = b := by
  rcases hb with rfl | rfl <;> rcases hn with rfl | rfl <;> norm_num [signQ]

theorem zip_mix {base noise : Vec} (hb : Bipolar base) (hn : Bipolar noise)
    (hlen : base.length = noise.length) :
    List.zipWith (fun b no => signQ (7/10 * b + 3/10 * no)) base noise = base := by
  induction base generalizing noise with
  | nil => rfl
  | cons x l ih =>
    cases noise with
    | nil => simp at hlen
    | cons y m =>
      have hx := hb x (List.mem_cons_self x l)
      have hy := hn y (List.mem_cons_self y m)
      have hl : Bipolar l := fun z hz => hb z (List.mem_cons_of_mem x hz)
      have hm : Bipolar m := fun z hz => hn z (List.mem_cons_of_mem y hz)
      have hlen' : l.length = m.length := by simpa using hlen
      show signQ (7/10 * x + 3/10 * y) :: List.zipWith _ l m = x :: l
      rw [sign_mix hx hy, ih hl hm hlen']

/-- Shared evaluation of `decompose`: the 0.7/0.3 blend can never flip a
sign (|0.7·(±1)| > |0.3·(±1)|), so every sub-particle equals the base
vector exactly. -/
theorem decompose_spec (cb : Codebook) (s : String) (n : ℕ) (hwf : Codebook.WF cb) :
    (cb.decompose s n).1.length = n ∧
    ∀ v ∈ (cb.decompose s n).1, v = Codebook.encodeVal cb s := by
  obtain ⟨hlook, hlt, hbip, hlen, hdim, hwf'⟩ := Codebook.encode_spec cb s hwf
  constructor
  · simp [Codebook.decompose]
  · intro v hv
    simp only [Codebook.decompose, List.mem_map, List.mem_range] at hv
    obtain ⟨i, -, rfl⟩ := hv
    apply zip_mix hbip (Codebook.noiseVec_bipolar _ _ _)
    rw [hlen, Codebook.noiseVec_length, hdim]

/-- C9: from a well-formed codebook of positive dimension, `decompose(s, n)`
returns exactly `n` vectors, each with cosine similarity 1 > 0.3 to
`encode(s)` (each sub-particle is in fact the base vector itself). -/
theorem spec_c9_decompose (cb : Codebook) (s : String) (n : ℕ) (hwf : Codebook.WF cb)
    (hdim : 0 < cb.dim) (hn : 1 ≤ n) :
    (cb.decompose s n).1.length = n ∧
    ∀ v ∈ (cb.decompose s n).1, (3/10 : ℝ) < similarityR v (Codebook.encodeVal cb s) := by
  obtain ⟨hlen, hall⟩ := decompose_spec cb s n hwf
  refine ⟨hlen, ?_⟩
  intro v hv
  obtain ⟨hlook, hlt, hbip, hvallen, hdimeq, hwf'⟩ := Codebook.encode_spec cb s hwf
  have hbip' : Bipolar (Codebook.encodeVal cb s) := hbip
  have hpos : 0 < (Codebook.encodeVal cb s).length := by
    rw [show (Codebook.encodeVal cb s).length = cb.dim.toNat from hvallen]
    omega
  rw [hall v hv, similarityR_self hbip' hpos]
  norm_num

theorem spec_c9_witness :
    ((Codebook.init 2 42).decompose "a" 3).1.length = 3 ∧
    ∀ v ∈ ((Codebook.init 2 42).decompose "a" 3).1,
      (3/10 : ℝ) < similarityR v (Codebook.encodeVal (Codebook.init 2 42) "a") :=
  spec_c9_decompose (Codebook.init 2 42) "a" 3 (by decide) (by decide) (by decide)

/-- C10: every vector returned by `decompose(s, n)` is element-wise
identical to `encode(s)`: the noise term (weight 0.3) can never outweigh
the base term (weight 0.7), so no sign flips and the sub-particles carry no
individual variation. -/
theorem spec_c10_decompose_identical (cb : Codebook) (s : String) (n : ℕ)
    (hwf : Codebook.WF cb) :
    ∀ v ∈ (cb.decompose s n).1, v = Codebook.encodeVal cb s :=
  (decompose_spec cb s n hwf).2

theorem spec_c10_witness :
    (((Codebook.init 2 42).decompose "a" 3).1.getD 0 []) =
      Codebook.encodeVal (Codebook.init 2 42) "a" := by
  have hlen : ((Codebook.init 2 42).decompose "a" 3).1.length = 3 := by
    simp [Codebook.decompose]
  have hmem : (((Codebook.init 2 42).decompose "a" 3).1.getD 0 []) ∈
      ((Codebook.init 2 42).decompose "a" 3).1 := by
    rw [List.getD_eq_getElem _ _ (by rw [hlen]; norm_num)]
    exact List.getElem_mem _
  exact spec_c10_decompose_identical (Codebook.init 2 42) "a" 3 (by decide) _ hmem

/-!
## Pipeline claims
-/

/-- C6: every stage maps empty input to empty output: with no free
particles `compute_density` returns no peaks, hence `nucleate` returns no
nuclei and leaves the field untouched, and `crystallize` on an empty
nuclei list short-circuits to no crystals with the field untouched. -/
theorem spec_c6_empty_propagation (f f' : PField) (cb : Codebook) (rng : ℕ → ℚ)
    (d rate mt : ℚ) (mc : ℕ) (h : freeIdxs f = []) :
    computeDensity f d = [] ∧ nucleate f cb d = ([], f) ∧
    crystallize f' [] cb rng rate mt mc = ([], f') := by
  have h1 : computeDensity f d = [] := by
    rw [computeDensity, h]
    rfl
  refine ⟨h1, ?_, ?_⟩
  · rw [nucleate, h1]
    rfl
  · rw [crystallize]
    rfl

theorem spec_c6_witness :
    computeDensity [⟨[1, 1], 1, 1, "p", ParticleCategory.INTENT, 1, true⟩] (1/4) = [] ∧
    nucleate [⟨[1, 1], 1, 1, "p", ParticleCategory.INTENT, 1, true⟩]
      (Codebook.init 2 42) (1/4) =
      ([], [⟨[1, 1], 1, 1, "p", ParticleCategory.INTENT, 1, true⟩]) ∧
    crystallize [⟨[1, 1], 1, 1, "p", ParticleCategory.INTENT, 1, true⟩] []
      (Codebook.init 2 42) (fun _ => 1/2) (1/20) (1/100) 4 =
      ([], [⟨[1, 1], 1, 1, "p", ParticleCategory.INTENT, 1, true⟩]) :=
  spec_c6_empty_propagation
    [⟨[1, 1], 1, 1, "p", ParticleCategory.INTENT, 1, true⟩]
    [⟨[1, 1], 1, 1, "p", ParticleCategory.INTENT, 1, true⟩]
    (Codebook.init 2 42) (fun _ => 1/2) (1/4) (1/20) (1/100) 4 (by decide)

/-- Total number of occurrences of index `i` across the contributing lists
of all peaks: the formal membership count of a particle in the peak list. -/
def cntPeaks (peaks : List DensityPeak) (i : ℕ) : ℕ :=
  (peaks.map (fun pk => pk.contributing.count i)).sum

theorem cntPeaks_append (p q : List DensityPeak) (i : ℕ) :
    cntPeaks (p ++ q) i = cntPeaks p i + cntPeaks q i := by
  simp [cntPeaks]

theorem freeIdxs_nodup (f : PField) : (freeIdxs f).Nodup :=
  List.Nodup.filter _ (List.nodup_range _)

theorem mem_freeIdxs {f : PField} {i : ℕ} :
    i ∈ freeIdxs f ↔ i < f.length ∧ (getP f i).frozen = false := by
  simp [freeIdxs, List.mem_filter, List.mem_range]

theorem free_getD_mem {f : PField} {j : ℕ} (hj : j < (freeIdxs f).length) :
    (freeIdxs f).getD j 0 ∈ freeIdxs f := by
  rw [List.getD_eq_getElem _ _ hj]
  exact List.getElem_mem hj

theorem free_getD_inj {f : PField} {j j' : ℕ} (hj : j < (freeIdxs f).length)
    (hj' : j' < (freeIdxs f).length)
    (h : (freeIdxs f).getD j 0 = (freeIdxs f).getD j' 0) : j = j' := by
  rw [List.getD_eq_getElem _ _ hj, List.getD_eq_getElem _ _ hj'] at h
  exact ((freeIdxs_nodup f).getElem_inj_iff).mp h

theorem argmaxFold_mem (g : ℕ → ℚ) (b : ℕ) (js : List ℕ) :
    argmaxFold g b js ∈ b :: js := by
  induction js generalizing b with
  | nil => simp [argmaxFold]
  | cons c t ih =>
    simp only [argmaxFold, List.foldl_cons]
    by_cases h : g b < g c
    · rw [if_pos h]
      have h2 := ih c
      simp only [argmaxFold] at h2
      rcases List.mem_cons.mp h2 with h' | h'
      · rw [h']; exact List.mem_cons_of_mem _ (List.mem_cons_self c t)
      · exact List.mem_cons_of_mem _ (List.mem_cons_of_mem c h')
    · rw [if_neg h]
      have h2 := ih b
      simp only [argmaxFold] at h2
      rcases List.mem_cons.mp h2 with h' | h'
      · rw [h']; exact List.mem_cons_self b (c :: t)
      · exact List.mem_cons_of_mem _ (List.mem_cons_of_mem c h')

theorem pickSeed_mem {f : PField} {free used : List ℕ} {idx : ℕ}
    (h : pickSeed f free used = some idx) : idx < free.length ∧ idx ∉ used := by
  rw [pickSeed] at h
  split at h
  · exact absurd h (by simp)
  · next j js heq =>
    have hidx : idx ∈ j :: js := by
      have := Option.some.inj h
      rw [← this]
      exact argmaxFold_mem _ _ _
    have : idx ∈ (List.range free.length).filter (fun j => decide (j ∉ used)) := by
      rw [heq]; exact hidx
    have := List.mem_filter.mp this
    exact ⟨List.mem_range.mp this.1, by simpa using this.2⟩

/-- Membership in the contributor list computed by the greedy loop. -/
theorem mem_contrib {f : PField} {free used : List ℕ} {d : ℚ} {idx j : ℕ} :
    j ∈ (List.range free.length).filter
        (fun j => decide (j ∉ used) && decide (d ≤ simAt f free idx j)) ↔
      j < free.length ∧ j ∉ used ∧ d ≤ simAt f free idx j := by
  simp [List.mem_filter, List.mem_range, and_assoc]

/-- Occurrence count of one position's particle inside a mapped contributor
list: exactly one when the position is collected, zero otherwise. -/
theorem count_map_free {f : PField} {l : List ℕ} (hnd : l.Nodup)
    (hsub : ∀ x ∈ l, x < (freeIdxs f).length) {j : ℕ}
    (hj : j < (freeIdxs f).length) :
    (l.map (fun x => (freeIdxs f).getD x 0)).count ((freeIdxs f).getD j 0) =
      if j ∈ l then 1 else 0 := by
  induction l with
  | nil => simp
  | cons x t ih =>
    have hx := hsub x (List.mem_cons_self x t)
    have hsub' : ∀ y ∈ t, y < (freeIdxs f).length :=
      fun y hy => hsub y (List.mem_cons_of_mem x hy)
    have hnd' : t.Nodup := hnd.of_cons
    by_cases hxj : x = j
    · subst hxj
      have hnotmem : x ∉ t := (List.nodup_cons.mp hnd).1
      have htail : ((freeIdxs f).getD x 0) ∉ t.map (fun y => (freeIdxs f).getD y 0) := by
        intro hmem
        obtain ⟨y, hy, hey⟩ := List.mem_map.mp hmem
        have hyx : y = x := free_getD_inj (hsub' y hy) hx hey
        exact hnotmem (hyx ▸ hy)
      rw [List.map_cons, List.count_cons_self, List.count_eq_zero_of_not_mem htail]
      simp
    · have hgxj : (freeIdxs f).getD x 0 ≠ (freeIdxs f).getD j 0 := by
        intro h; exact hxj (free_getD_inj hx hj h)
      have hjx : ¬ j = x := fun h => hxj h.symm
      rw [List.map_cons, List.count_cons_of_ne (Ne.symm hgxj), ih hnd' hsub']
      simp [List.mem_cons, hjx]

/-- Invariant of the greedy peak loop: every marked position occurs in
exactly one peak's contributor list, unmarked positions in none; no
particle outside the free list occurs anywhere; the mark set stays within
range.  (It is stated for runs where every candidate seed collects itself,
which the self-similarity hypothesis of the main theorems guarantees.) -/
def DInv (f : PField) (used : List ℕ) (peaks : List DensityPeak) : Prop :=
  (∀ j < (freeIdxs f).length,
      cntPeaks peaks ((freeIdxs f).getD j 0) = if j ∈ used then 1 else 0) ∧
  (∀ i, i ∉ freeIdxs f → cntPeaks peaks i = 0) ∧
  (∀ j ∈ used, j < (freeIdxs f).length)

theorem DInv_extend (f : PField) (d : ℚ) {used : List ℕ} {peaks : List DensityPeak}
    {idx : ℕ} (hinv : DInv f used peaks) :
    DInv f
      ((List.range (freeIdxs f).length).filter
        (fun j => decide (j ∉ used) && decide (d ≤ simAt f (freeIdxs f) idx j)) ++ used)
      (peaks ++ [⟨posAt f (freeIdxs f) idx, densityAt f (freeIdxs f) idx,
        ((List.range (freeIdxs f).length).filter
          (fun j => decide (j ∉ used) && decide (d ≤ simAt f (freeIdxs f) idx j))).map
          (fun j => (freeIdxs f).getD j 0)⟩]) := by
  obtain ⟨h1, h2, h3⟩ := hinv
  set ctb := (List.range (freeIdxs f).length).filter
    (fun j => decide (j ∉ used) && decide (d ≤ simAt f (freeIdxs f) idx j)) with hctb
  have hnd : ctb.Nodup := List.Nodup.filter _ (List.nodup_range _)
  have hsub : ∀ x ∈ ctb, x < (freeIdxs f).length := by
    intro x hx
    exact (mem_contrib.mp (hctb ▸ hx)).1
  refine ⟨?_, ?_, ?_⟩
  · intro j hj
    rw [cntPeaks_append]
    have hcount : cntPeaks [⟨posAt f (freeIdxs f) idx, densityAt f (freeIdxs f) idx,
        ctb.map (fun j => (freeIdxs f).getD j 0)⟩] ((freeIdxs f).getD j 0) =
        if j ∈ ctb then 1 else 0 := by
      simp only [cntPeaks, List.map_cons, List.map_nil, List.sum_cons, List.sum_nil,
        add_zero]
      exact count_map_free hnd hsub hj
    rw [h1 j hj, hcount]
    by_cases hjc : j ∈ ctb
    · have hju : j ∉ used := (mem_contrib.mp (hctb ▸ hjc)).2.1
      rw [if_neg hju, if_pos hjc, if_pos (List.mem_append.mpr (Or.inl hjc))]
    · rw [if_neg hjc]
      by_cases hju : j ∈ used
      · rw [if_pos hju, if_pos (List.mem_append.mpr (Or.inr hju))]
      · rw [if_neg hju, if_neg (fun h => (List.mem_append.mp h).elim hjc hju)]
  · intro i hi
    rw [cntPeaks_append, h2 i hi]
    simp only [cntPeaks, List.map_cons, List.map_nil, List.sum_cons, List.sum_nil,
      add_zero, Nat.zero_add]
    apply List.count_eq_zero_of_not_mem
    intro hmem
    obtain ⟨y, hy, hey⟩ := List.mem_map.mp hmem
    exact hi (hey ▸ free_getD_mem (hsub y hy))
  · intro j hj
    rcases List.mem_append.mp hj with h | h
    · exact hsub j h
    · exact h3 j h

theorem greedyLoop_inv (f : PField) (d : ℚ)
    (hd : ∀ j < (freeIdxs f).length, d ≤ simAt f (freeIdxs f) j j) :
    ∀ (fuel : ℕ) (used : List ℕ) (peaks : List DensityPeak),
      DInv f used peaks →
      DInv f (greedyLoop f (freeIdxs f) d fuel used peaks).2
        (greedyLoop f (freeIdxs f) d fuel used peaks).1 := by
  intro fuel
  induction fuel with
  | zero => intro used peaks h; exact h
  | succ fuel ih =>
    intro used peaks hinv
    rcases hpick : pickSeed f (freeIdxs f) used with _ | idx
    · simp only [greedyLoop, hpick]
      exact hinv
    · obtain ⟨hidxn, hidxu⟩ := pickSeed_mem hpick
      simp only [greedyLoop, hpick]
      by_cases hden : densityAt f (freeIdxs f) idx ≤ 0
      · rw [if_pos hden]; exact hinv
      · rw [if_neg hden]
        set ctb := (List.range (freeIdxs f).length).filter
          (fun j => decide (j ∉ used) && decide (d ≤ simAt f (freeIdxs f) idx j)) with hctb
        have hidxc : idx ∈ ctb := by
          rw [hctb]
          exact mem_contrib.mpr ⟨hidxn, hidxu, hd idx hidxn⟩
        by_cases hemp : ctb.isEmpty
        · exact absurd (List.isEmpty_iff.mp hemp ▸ hidxc) (List.not_mem_nil idx)
        · rw [if_neg hemp]
          have hnew := @DInv_extend f d used peaks idx hinv
          rw [← hctb] at hnew
          by_cases hall : (List.range (freeIdxs f).length).all
              (fun j => decide (j ∈ ctb ++ used))
          · rw [if_pos hall]
            exact hnew
          · rw [if_neg hall]
            exact ih _ _ hnew

theorem cntPeaks_singletons (l : List ℕ) (g : ℕ → ℕ) (pos : ℕ → Vec) (den : ℕ → ℚ)
    (i : ℕ) :
    cntPeaks (l.map (fun j => ⟨pos j, den j, [g j]⟩)) i = (l.map g).count i := by
  induction l with
  | nil => rfl
  | cons x t ih =>
    simp only [List.map_cons, cntPeaks, List.sum_cons] at ih ⊢
    rw [ih, List.count_cons, List.count_cons]
    simp only [List.count_nil, Nat.zero_add]
    omega

/-- Full particle accounting for `compute_density`: under the
self-similarity hypothesis every free particle lands in exactly one peak
(greedy contributor or orphan singleton), and no other particle occurs. -/
theorem computeDensity_cnt (f : PField) (d : ℚ)
    (hself : ∀ i ∈ freeIdxs f, d ≤ simQ (getP f i).position (getP f i).position) :
    (∀ i ∈ freeIdxs f, cntPeaks (computeDensity f d) i = 1) ∧
    (∀ i, i ∉ freeIdxs f → cntPeaks (computeDensity f d) i = 0) := by
  have hd : ∀ j < (freeIdxs f).length, d ≤ simAt f (freeIdxs f) j j := by
    intro j hj
    exact hself _ (free_getD_mem hj)
  by_cases hfe : (freeIdxs f).isEmpty
  · have hnil : freeIdxs f = [] := List.isEmpty_iff.mp hfe
    constructor
    · intro i hi; rw [hnil] at hi; cases hi
    · intro i _
      rw [computeDensity]
      dsimp only
      rw [if_pos hfe]
      rfl
  · have hinv0 : DInv f [] [] := by
      refine ⟨?_, ?_, ?_⟩
      · intro j hj; simp [cntPeaks]
      · intro i _; simp [cntPeaks]
      · intro j h; cases h
    have hres := greedyLoop_inv f d hd ((freeIdxs f).length + 1) [] [] hinv0
    obtain ⟨g1, g2, g3⟩ := hres
    set r := greedyLoop f (freeIdxs f) d ((freeIdxs f).length + 1) [] [] with hr
    set ulist := (List.range (freeIdxs f).length).filter
      (fun j => decide (j ∉ r.2)) with hulist
    have hund : ulist.Nodup := List.Nodup.filter _ (List.nodup_range _)
    have husub : ∀ x ∈ ulist, x < (freeIdxs f).length := by
      intro x hx
      rw [hulist] at hx
      exact List.mem_range.mp (List.mem_filter.mp hx).1
    have humem : ∀ j, j ∈ ulist ↔ j < (freeIdxs f).length ∧ j ∉ r.2 := by
      intro j
      rw [hulist]
      simp [List.mem_filter, List.mem_range]
    have hcd : computeDensity f d = r.1 ++ ulist.map
        (fun j => ⟨posAt f (freeIdxs f) j, densityAt f (freeIdxs f) j,
          [(freeIdxs f).getD j 0]⟩) := by
      rw [computeDensity]
      dsimp only
      rw [if_neg hfe]
    constructor
    · intro i hi
      obtain ⟨j, hj, hij⟩ := List.mem_iff_getElem.mp hi
      have higd : i = (freeIdxs f).getD j 0 := by
        rw [List.getD_eq_getElem _ _ hj, hij]
      rw [hcd, cntPeaks_append, higd]
      rw [cntPeaks_singletons, count_map_free hund husub hj, g1 j hj]
      by_cases hju : j ∈ r.2
      · rw [if_pos hju, if_neg (fun h => ((humem j).mp h).2 hju)]
      · rw [if_neg hju, if_pos ((humem j).mpr ⟨hj, hju⟩)]
    · intro i hi
      rw [hcd, cntPeaks_append, g2 i hi, cntPeaks_singletons]
      rw [List.count_eq_zero_of_not_mem]
      intro hmem
      obtain ⟨y, hy, hey⟩ := List.mem_map.mp hmem
      exact hi (hey ▸ free_getD_mem (husub y hy))

/-- C5 (amended): provided every free particle's self-similarity reaches
`min_distance` (true in particular for the bipolar positions of positive
dimension that the plasma stage produces, where it is 1), the peaks of
`compute_density` partition the free particles — each free particle occurs
in the contributing list of exactly one returned peak — and no frozen
particle occurs in any peak. -/
theorem spec_c5_density_partition (f : PField) (d : ℚ)
    (hfree : freeIdxs f ≠ []) (hd0 : 0 < d) (hd1 : d ≤ 1)
    (hself : ∀ i ∈ freeIdxs f, d ≤ simQ (getP f i).position (getP f i).position) :
    (∀ i ∈ freeIdxs f, cntPeaks (computeDensity f d) i = 1) ∧
    (∀ i, i < f.length → (getP f i).frozen = true →
      cntPeaks (computeDensity f d) i = 0) := by
  obtain ⟨h1, h2⟩ := computeDensity_cnt f d hself
  refine ⟨h1, ?_⟩
  intro i _ hfz
  apply h2
  intro hmem
  have hff := (mem_freeIdxs.mp hmem).2
  rw [hff] at hfz
  cases hfz

/-- Two free particles with bipolar positions (self-similarity 1). -/
def twoField : PField :=
  [⟨[1, 1], 1, 1, "a", ParticleCategory.INTENT, 1, false⟩,
   ⟨[1, -1], 1, 1, "b", ParticleCategory.INTENT, 1, false⟩]

theorem twoField_free : freeIdxs twoField = [0, 1] := by decide

theorem twoField_selfsim :
    ∀ i ∈ freeIdxs twoField,
      (1/4 : ℚ) ≤ simQ (getP twoField i).position (getP twoField i).position := by
  intro i hi
  rw [twoField_free] at hi
  simp only [List.mem_cons, List.not_mem_nil, or_false] at hi
  rcases hi with rfl | rfl
  · norm_num [simQ, dotV, getP, twoField]
  · norm_num [simQ, dotV, getP, twoField]

theorem spec_c5_witness :
    (∀ i ∈ freeIdxs twoField, cntPeaks (computeDensity twoField (1/4)) i = 1) ∧
    (∀ i, i < twoField.length → (getP twoField i).frozen = true →
      cntPeaks (computeDensity twoField (1/4)) i = 0) :=
  spec_c5_density_partition twoField (1/4) (by decide) (by norm_num) (by norm_num)
    twoField_selfsim

/-- One free particle whose position norm (≈1.4·10⁻⁹) lies below the
source's `1e-8` clamp: in the source its self-similarity evaluates to
0.02 < 0.3 (and here to 10⁻¹⁸ < 0.3) while its density 0.02 (here 10⁻¹⁸)
is strictly positive, so the greedy loop picks it as a seed, collects no
contributors, marks it used without a peak — and the orphan pass skips it. -/
def tinyField : PField :=
  [⟨[1/1000000000, 1/1000000000], 1, 1, "c", ParticleCategory.INTENT, 1, false⟩]

theorem tinyField_selfsim :
    simAt tinyField [0] 0 0 = 1/1000000000000000000 := by
  norm_num [simAt, posAt, simQ, dotV, getP, tinyField]

theorem tinyField_density :
    densityAt tinyField [0] 0 = 1/1000000000000000000 := by
  rw [densityAt]
  rw [show List.range ([0] : List ℕ).length = [0] by decide]
  simp only [List.map_cons, List.map_nil, List.sum_cons, List.sum_nil, add_zero,
    tinyField_selfsim]
  rw [max_eq_left (by norm_num : (0 : ℚ) ≤ 1/1000000000000000000)]
  norm_num [chargeAt, getP, tinyField]

theorem tinyField_density_empty : computeDensity tinyField (3/10) = [] := by
  have hfree : freeIdxs tinyField = [0] := by decide
  have hpick : pickSeed tinyField [0] [] = some 0 := by decide
  have hpick2 : pickSeed tinyField [0] [0] = none := by decide
  have hbfalse : (decide ((0 : ℕ) ∉ ([] : List ℕ)) &&
      decide ((3/10 : ℚ) ≤ simAt tinyField [0] 0 0)) = false := by
    have hlt : ¬ ((3/10 : ℚ) ≤ simAt tinyField [0] 0 0) := by
      rw [tinyField_selfsim]; norm_num
    simp [hlt]
  have hcontrib : (List.range ([0] : List ℕ).length).filter
      (fun j => decide (j ∉ ([] : List ℕ)) &&
        decide ((3/10 : ℚ) ≤ simAt tinyField [0] 0 j)) = [] := by
    rw [show List.range ([0] : List ℕ).length = [0] by decide]
    simp only [List.filter_cons, List.filter_nil, hbfalse]
    rfl
  have hloop : greedyLoop tinyField [0] (3/10) 2 [] [] = ([], [0]) := by
    rw [show (2 : ℕ) = 1 + 1 from rfl, greedyLoop, hpick]
    dsimp only
    rw [if_neg (by rw [tinyField_density]; norm_num)]
    rw [hcontrib]
    rw [if_pos (by decide : ([] : List ℕ).isEmpty = true)]
    rw [greedyLoop, hpick2]
  unfold computeDensity
  dsimp only
  rw [hfree]
  rw [if_neg (by decide : ¬ ([0] : List ℕ).isEmpty = true)]
  rw [show ([0] : List ℕ).length + 1 = 2 by decide]
  rw [hloop]
  decide

/-- C5 (counterexample to the claim as stated): on the one-particle field
with a denormalized position, with `min_distance = 0.3 ∈ (0,1]` and a free
particle present, `compute_density` returns peaks (none at all) in which
that free particle appears zero times, not exactly once. -/
theorem spec_c5_counterexample :
    (0 : ℚ) < 3/10 ∧ (3/10 : ℚ) ≤ 1 ∧ freeIdxs tinyField ≠ [] ∧
    ¬ (∀ i ∈ freeIdxs tinyField, cntPeaks (computeDensity tinyField (3/10)) i = 1) := by
  refine ⟨by norm_num, by norm_num, by decide, ?_⟩
  intro hall
  have h0 : (0 : ℕ) ∈ freeIdxs tinyField := by decide
  have h1 := hall 0 h0
  rw [tinyField_density_empty] at h1
  simp [cntPeaks] at h1

/-!
## Freezing lemmas and the end-to-end frozen invariant
-/

/-- Every particle of the field is frozen. -/
def allFrozen (f : PField) : Prop := ∀ p ∈ f, p.frozen = true

theorem allFrozen_iff_idx {f : PField} :
    allFrozen f ↔ ∀ j < f.length, (getP f j).frozen = true := by
  constructor
  · intro h j hj
    rw [getP, List.getD_eq_getElem _ _ hj]
    exact h _ (List.getElem_mem hj)
  · intro h p hp
    obtain ⟨j, hj, hjp⟩ := List.mem_iff_getElem.mp hp
    have := h j hj
    rw [getP, List.getD_eq_getElem _ _ hj, hjp] at this
    exact this

theorem freeIdxs_nil_iff {f : PField} : freeIdxs f = [] ↔ allFrozen f := by
  rw [freeIdxs, List.filter_eq_nil_iff, allFrozen_iff_idx]
  constructor
  · intro h j hj
    have := h j (List.mem_range.mpr hj)
    simpa using this
  · intro h j hj
    have := h j (List.mem_range.mp hj)
    simp [this]

theorem freezeAt_length (f : PField) (i : ℕ) : (freezeAt f i).length = f.length :=
  List.length_set f i _

theorem frozen_freezeAt_self {f : PField} {i : ℕ} (hi : i < f.length) :
    (getP (freezeAt f i) i).frozen = true := by
  have hi' : i < (f.set i { getP f i with frozen := true }).length := by
    rw [List.length_set]; exact hi
  show ((f.set i { getP f i with frozen := true }).getD i default).frozen = true
  rw [List.getD_eq_getElem _ _ hi', List.getElem_set_self]

theorem frozen_freezeAt_mono {f : PField} {i j : ℕ}
    (h : (getP f j).frozen = true) : (getP (freezeAt f i) j).frozen = true := by
  by_cases hj : j < f.length
  · have hj' : j < (f.set i { getP f i with frozen := true }).length := by
      rw [List.length_set]; exact hj
    show ((f.set i { getP f i with frozen := true }).getD j default).frozen = true
    rw [List.getD_eq_getElem _ _ hj', List.getElem_set]
    split
    · rfl
    · rw [getP, List.getD_eq_getElem _ _ hj] at h
      exact h
  · show ((f.set i { getP f i with frozen := true }).getD j default).frozen = true
    rw [List.getD_eq_default _ _ (by rw [List.length_set]; omega)]
    rw [getP, List.getD_eq_default _ _ (by omega : f.length ≤ j)] at h
    exact h

theorem freezeMany_length (f : PField) (l : List ℕ) :
    (freezeMany f l).length = f.length := by
  induction l generalizing f with
  | nil => rfl
  | cons x t ih =>
    show (freezeMany (freezeAt f x) t).length = f.length
    rw [ih, freezeAt_length]

theorem frozen_freezeMany_mono {f : PField} {j : ℕ} (l : List ℕ)
    (h : (getP f j).frozen = true) : (getP (freezeMany f l) j).frozen = true := by
  induction l generalizing f with
  | nil => exact h
  | cons x t ih =>
    show (getP (freezeMany (freezeAt f x) t) j).frozen = true
    exact ih (frozen_freezeAt_mono h)

theorem frozen_freezeMany_covers {f : PField} {j : ℕ} {l : List ℕ}
    (hj : j ∈ l) (hlen : j < f.length) :
    (getP (freezeMany f l) j).frozen = true := by
  induction l generalizing f with
  | nil => cases hj
  | cons x t ih =>
    show (getP (freezeMany (freezeAt f x) t) j).frozen = true
    rcases List.mem_cons.mp hj with rfl | hmem
    · exact frozen_freezeMany_mono t (frozen_freezeAt_self hlen)
    · exact ih hmem ((freezeAt_length f x) ▸ hlen)

theorem freezeAll_length (f : PField) (nuclei : List CrystalNucleus) :
    (freezeAll f nuclei).length = f.length := by
  induction nuclei generalizing f with
  | nil => rfl
  | cons nu t ih =>
    show (freezeAll (freezeMany f nu.absorbed) t).length = f.length
    rw [ih, freezeMany_length]

theorem frozen_freezeAll_mono {f : PField} {j : ℕ} (nuclei : List CrystalNucleus)
    (h : (getP f j).frozen = true) : (getP (freezeAll f nuclei) j).frozen = true := by
  induction nuclei generalizing f with
  | nil => exact h
  | cons nu t ih =>
    show (getP (freezeAll (freezeMany f nu.absorbed) t) j).frozen = true
    exact ih (frozen_freezeMany_mono _ h)

theorem frozen_freezeAll_covers {f : PField} {j : ℕ} {nuclei : List CrystalNucleus}
    {nu : CrystalNucleus} (hnu : nu ∈ nuclei) (hj : j ∈ nu.absorbed)
    (hlen : j < f.length) : (getP (freezeAll f nuclei) j).frozen = true := by
  induction nuclei generalizing f with
  | nil => cases hnu
  | cons m t ih =>
    show (getP (freezeAll (freezeMany f m.absorbed) t) j).frozen = true
    rcases List.mem_cons.mp hnu with rfl | hmem
    · exact frozen_freezeAll_mono t (frozen_freezeMany_covers hj hlen)
    · exact ih hmem ((freezeMany_length f m.absorbed) ▸ hlen)

theorem insertDescBy_mem {α : Type} (key : α → ℚ) (x a : α) (l : List α) :
    a ∈ insertDescBy key x l ↔ a = x ∨ a ∈ l := by
  induction l with
  | nil => simp [insertDescBy]
  | cons y t ih =>
    simp only [insertDescBy]
    split <;> simp only [List.mem_cons, ih] <;> tauto

theorem sortDescBy_mem {α : Type} (key : α → ℚ) (a : α) (l : List α) :
    a ∈ sortDescBy key l ↔ a ∈ l := by
  induction l with
  | nil => simp [sortDescBy]
  | cons x t ih =>
    simp only [sortDescBy, insertDescBy_mem, List.mem_cons, ih]

theorem cntPeaks_pos_mem {peaks : List DensityPeak} {i : ℕ}
    (h : cntPeaks peaks i = 1) : ∃ pk ∈ peaks, i ∈ pk.contributing := by
  by_contra hnone
  push_neg at hnone
  have : cntPeaks peaks i = 0 := by
    apply List.sum_eq_zero
    intro x hx
    obtain ⟨pk, hpk, hpkx⟩ := List.mem_map.mp hx
    rw [← hpkx]
    exact List.count_eq_zero_of_not_mem (hnone pk hpk)
  omega

/-- After `nucleate`, every particle of the field is frozen (under the
self-similarity hypothesis: the peaks then cover every free particle, and
nucleation.py lines 114-117 freeze every absorbed particle). -/
theorem nucleate_allFrozen (f : PField) (cb : Codebook) (d : ℚ)
    (hself : ∀ i ∈ freeIdxs f, d ≤ simQ (getP f i).position (getP f i).position) :
    allFrozen (nucleate f cb d).2 := by
  by_cases hfe : freeIdxs f = []
  · have hall : allFrozen f := freeIdxs_nil_iff.mp hfe
    have hcd : computeDensity f d = [] := by
      rw [computeDensity]
      dsimp only
      rw [if_pos (by rw [hfe]; rfl)]
    have hnuc : nucleate f cb d = ([], f) := by
      rw [nucleate, hcd]
      rfl
    rw [hnuc]
    exact hall
  · obtain ⟨h1, h2⟩ := computeDensity_cnt f d hself
    obtain ⟨i0, hi0⟩ : ∃ i, i ∈ freeIdxs f := by
      cases hl : freeIdxs f with
      | nil => exact absurd hl hfe
      | cons a t => exact ⟨a, hl ▸ List.mem_cons_self a t⟩
    have hcnt := h1 i0 hi0
    have hpke : computeDensity f d ≠ [] := by
      intro h
      rw [h] at hcnt
      simp [cntPeaks] at hcnt
    have hne : (computeDensity f d).isEmpty = false := by
      cases hcd : computeDensity f d with
      | nil => exact absurd hcd hpke
      | cons a t => rfl
    rw [nucleate]
    dsimp only
    rw [if_neg (by simp [hne])]
    rw [allFrozen_iff_idx]
    intro j hj
    rw [freezeAll_length] at hj
    by_cases hfz : (getP f j).frozen = true
    · exact frozen_freezeAll_mono _ hfz
    · have hjf : j ∈ freeIdxs f := by
        refine mem_freeIdxs.mpr ⟨hj, ?_⟩
        revert hfz
        cases (getP f j).frozen <;> simp
      obtain ⟨pk, hpk, hjc⟩ := cntPeaks_pos_mem (h1 j hjf)
      have hmapmem : (⟨pk.position, pk.density, dominantEmotion f pk.contributing,
          pk.contributing,
          topLabels (pk.contributing.map (fun i => splitHash (getP f i).label))⟩ :
            CrystalNucleus) ∈
          (computeDensity f d).map (fun pk =>
            (⟨pk.position, pk.density, dominantEmotion f pk.contributing,
              pk.contributing,
              topLabels (pk.contributing.map (fun i => splitHash (getP f i).label))⟩ :
                CrystalNucleus)) :=
      List.mem_map_of_mem _ hpk
    
      have hsorted := (sortDescBy_mem (fun nu => nu.strength) _ _).mpr hmapmem
      exact frozen_freezeAll_covers hsorted hjc hj

theorem coolLoop_stationary {f : PField} (h : freeIdxs f = []) (rng : ℕ → ℚ)
    (rate mt : ℚ) (fuel : ℕ) (temp : ℚ) (nuclei : List CrystalNucleus) (k : ℕ) :
    coolLoop rng rate mt fuel temp nuclei f k = (nuclei, f, k) := by
  cases fuel with
  | zero => rfl
  | succ fuel =>
    rw [coolLoop]
    by_cases ht : temp ≤ mt
    · rw [if_pos ht]
    · rw [if_neg ht]
      dsimp only
      rw [h]
      rfl

theorem residualAbsorb_stationary {f : PField} (h : freeIdxs f = [])
    (nuclei : List CrystalNucleus) : residualAbsorb nuclei f = (nuclei, f) := by
  rw [residualAbsorb, h]
  rfl

/-- With every particle already frozen (the state `nucleate` leaves behind),
`crystallize` never touches the field: the cooling loop breaks on an empty
free snapshot and the residual pass iterates over nothing. -/
theorem crystallize_stationary (f : PField) (nuclei : List CrystalNucleus)
    (cb : Codebook) (rng : ℕ → ℚ) (rate mt : ℚ) (mc : ℕ) (h : allFrozen f) :
    (crystallize f nuclei cb rng rate mt mc).2 = f := by
  have hfe : freeIdxs f = [] := freeIdxs_nil_iff.mpr h
  rw [crystallize]
  by_cases hn : nuclei.isEmpty
  · rw [if_pos hn]
  · rw [if_neg hn]
    dsimp only
    rw [coolLoop_stationary hfe]
    dsimp only
    rw [residualAbsorb_stationary hfe]

/-- C1 (amended): for every field whose free particles have self-similarity
at least nucleation's `min_density_distance` (in particular bipolar
positions of positive dimension), after `nucleate` followed by
`crystallize` on the resulting (empty or non-empty) nuclei list, every
particle in the field is frozen: nucleation freezes all peak contributors
(which then cover all free particles) and crystallization never unfreezes. -/
theorem spec_c1_all_frozen (f : PField) (cb cb' : Codebook) (d rate mt : ℚ)
    (rng : ℕ → ℚ) (mc : ℕ)
    (hself : ∀ i ∈ freeIdxs f, d ≤ simQ (getP f i).position (getP f i).position) :
    ∀ p ∈ (crystallize (nucleate f cb d).2 (nucleate f cb d).1 cb' rng rate mt mc).2,
      p.frozen = true := by
  have h1 : allFrozen (nucleate f cb d).2 := nucleate_allFrozen f cb d hself
  rw [crystallize_stationary _ _ _ _ _ _ _ h1]
  exact h1

theorem spec_c1_witness :
    ((crystallize (nucleate twoField (Codebook.init 2 42) (1/4)).2
        (nucleate twoField (Codebook.init 2 42) (1/4)).1
        (Codebook.init 2 42) (fun _ => 1/2) (1/20) (1/100) 4).2.all
      (fun p => p.frozen)) = true :=
  List.all_eq_true.mpr
    (spec_c1_all_frozen twoField (Codebook.init 2 42) (Codebook.init 2 42)
      (1/4) (1/20) (1/100) (fun _ => 1/2) 4 twoField_selfsim)

/-- C1 (counterexample to the claim as stated): on the one-particle field
with a denormalized position (norm below the source's 1e-8 clamp),
`nucleate` finds no peaks (the particle is dropped by density computation),
so `crystallize` short-circuits on the empty nuclei list and the particle
is never frozen. -/
theorem spec_c1_counterexample :
    ¬ (∀ p ∈ (crystallize (nucleate tinyField (Codebook.init 2 42) (3/10)).2
        (nucleate tinyField (Codebook.init 2 42) (3/10)).1
        (Codebook.init 2 42) (fun _ => 1/2) (1/20) (1/100) 4).2,
        p.frozen = true) := by
  have hnuc : nucleate tinyField (Codebook.init 2 42) (3/10) = ([], tinyField) := by
    rw [nucleate, tinyField_density_empty]
    rfl
  have hcr : crystallize tinyField [] (Codebook.init 2 42) (fun _ => 1/2)
      (1/20) (1/100) 4 = ([], tinyField) := by
    rw [crystallize]
    rfl
  rw [hnuc]
  dsimp only
  rw [hcr]
  dsimp only
  intro hall
  have hp := hall ⟨[1/1000000000, 1/1000000000], 1, 1, "c", ParticleCategory.INTENT, 1,
    false⟩ (List.mem_cons_self _ _)
  simp at hp
